import Mathlib

/-!
# Binary search tree ADT (`Bstree<T>`): embedding and verification

The development embeds `src/Bstree.cpp` / `src/Bstree.h`.

## Data model

* `Node α` is a nullable owning pointer `Node<T>*`: `Node.null` is `nullptr`,
  `Node.node left data right` is a pointer to a heap cell with its three fields.
* `Bstree α` is the object state: the `root` pointer and the `long order` counter.
* A non-owning `Node<T>*` local (`tmp`, `nodeptr`, `parent`, `replacement`, `node`) is an
  `Option Addr`: `none` is `nullptr`, `some p` is the address of the cell reached from the
  root by the child selections `p`. Every cell of the structure is owned by exactly one
  slot, so two such pointers are equal exactly when their addresses are equal.
* The element type `T` comes with `operator==` and `operator>`. They are modelled by a key
  projection `key : α → κ` into a linear order: `a == b` is `key a = key b` and `a > b` is
  `key a > key b` (take `key := id` when the whole item is the key, as for the
  `Bstree<string>` of `BstreeParser.cpp`).
* `while` loops are structural recursions on the subtree hanging at the loop pointer; the two
  recursive member functions that mutate the structure (`remove(Node<T>*)`, `trim(Node<T>*)`)
  recurse on a step budget, and the public entry points pass the number of nodes of the tree,
  which bounds the recursion depth (`removeNode_of_sub` and `trimNode_spec` show that the
  result does not depend on the budget once it is that large).
* An address names a cell for as long as no cell on the way to it is unlinked. On trees that
  satisfy the ordering invariant every removal made by `trim(Node<T>*)` happens at or below
  the cell the call was made on, so the addresses held by the pending calls stay valid.
-/

namespace BstreeADT

/-- A nullable pointer to a tree cell (`Node<T>*` owning its pointee). -/
inductive Node (α : Type) where
  | null : Node α
  | node (left : Node α) (data : α) (right : Node α) : Node α
  deriving DecidableEq

/-- One child selection: `->left` or `->right`. -/
inductive Dir where
  | L : Dir
  | R : Dir
  deriving DecidableEq

/-- The address of a cell: the child selections leading to it from the root. -/
abbrev Addr := List Dir

/-- The state of a `Bstree<T>` object: fields `root` and `order`. -/
structure Bstree (α : Type) where
  root : Node α
  order : Int
  deriving DecidableEq

variable {α κ σ : Type}

/-- Null test `!ptr`. -/
def Node.isNull : Node α → Bool
  | .null => true
  | .node _ _ _ => false

/-- The pointer stored in the slot with address `p` (`null` when the walk leaves the tree). -/
def Node.sub : Node α → Addr → Node α
  | t, [] => t
  | .null, _ :: _ => .null
  | .node l _ _, Dir.L :: p => l.sub p
  | .node _ _ r, Dir.R :: p => r.sub p

/-- Assignment `slot(p) = s` of a pointer to the slot with address `p`. -/
def Node.store : Node α → Addr → Node α → Node α
  | _, [], s => s
  | .null, _ :: _, _ => .null
  | .node l d r, Dir.L :: p, s => .node (l.store p s) d r
  | .node l d r, Dir.R :: p, s => .node l d (r.store p s)

/-- Assignment `cell(p)->data = x`. -/
def Node.setData : Node α → Addr → α → Node α
  | .null, _, _ => .null
  | .node l _ r, [], x => .node l x r
  | .node l d r, Dir.L :: p, x => .node (l.setData p x) d r
  | .node l d r, Dir.R :: p, x => .node l d (r.setData p x)

/-- The constructor `Bstree()`: `root = nullptr; order = 0`. -/
def Bstree.mk0 : Bstree α := ⟨.null, 0⟩

/-- The member `empty()`: `root == nullptr`. -/
def Bstree.empty (s : Bstree α) : Bool := s.root.isNull

/-- The member `size()`: returns `order`. -/
def Bstree.size (s : Bstree α) : Int := s.order

section Ops

variable [LinearOrder κ] (key : α → κ)

/-- The `while (true)` loop of `insert` at a non-null `tmp`: the rewritten subtree, and
whether `order++` was executed. -/
def insertLoop (item : α) : Node α → Node α × Bool
  | .null => (.null, false)
  | .node l d r =>
    if key d = key item then
      (.node l item r, false)
    else if key d > key item then
      if l.isNull then (.node (.node .null item .null) d r, true)
      else (.node (insertLoop item l).1 d r, (insertLoop item l).2)
    else
      if r.isNull then (.node l d (.node .null item .null), true)
      else (.node l d (insertLoop item r).1, (insertLoop item r).2)

/-- The member `insert(T item)`. -/
def Bstree.insert (s : Bstree α) (item : α) : Bstree α :=
  if s.root.isNull then
    ⟨.node .null item .null, s.order + 1⟩
  else
    ⟨(insertLoop key item s.root).1,
      if (insertLoop key item s.root).2 then s.order + 1 else s.order⟩

/-- The `while (true)` loop of `inTree` at a non-null `tmp`. -/
def inTreeLoop (item : α) : Node α → Bool
  | .null => false
  | .node l d r =>
    if key d = key item then true
    else if key d > key item then
      if l.isNull then false else inTreeLoop item l
    else
      if r.isNull then false else inTreeLoop item r

/-- The member `inTree(T item)`. -/
def Bstree.inTree (s : Bstree α) (item : α) : Bool :=
  if s.root.isNull then false else inTreeLoop key item s.root

/-- The `while (tmp)` loop of `search`; the second argument is the address of `tmp`, the
first the cell it points to. -/
def searchLoop (item : α) : Node α → Addr → Option Addr
  | .null, _ => none
  | .node l d r, tmp =>
    if key d = key item then some tmp
    else if key d > key item then searchLoop item l (tmp ++ [Dir.L])
    else searchLoop item r (tmp ++ [Dir.R])

/-- The private member `search(const T& item)`. -/
def search (root : Node α) (item : α) : Option Addr :=
  searchLoop key item root []

/-- The `while (true)` loop of `findParent`: `nd` is `node->data`, `node` the address
searched for, the third argument the cell `tmp` points to and the fourth its address. -/
def findParentLoop (nd : α) (node : Addr) : Node α → Addr → Option Addr
  | .null, _ => none
  | .node l d r, tmp =>
    if key d > key nd then
      if tmp ++ [Dir.L] = node then some tmp
      else findParentLoop nd node l (tmp ++ [Dir.L])
    else
      if tmp ++ [Dir.R] = node then some tmp
      else findParentLoop nd node r (tmp ++ [Dir.R])

/-- The private member `findParent(Node<T>* node)`. -/
def findParent (root : Node α) (node : Addr) : Option Addr :=
  if node = [] then none
  else
    match root.sub node with
    | .null => none
    | .node _ nd _ => findParentLoop key nd node root []

/-- The loop `while (replacement->left) replacement = replacement->left;`: the first
argument is the cell `replacement` points to, the second its address. -/
def leftmostLoop : Node α → Addr → Addr
  | .null, replacement => replacement
  | .node l _ _, replacement =>
    if l.isNull then replacement else leftmostLoop l (replacement ++ [Dir.L])

/-- The private member `remove(Node<T>* node)` run with a budget of nested calls: the new
`root` and the returned flag. -/
def removeNode : Nat → Node α → Addr → Node α × Bool
  | 0, root, _ => (root, false)
  | fuel + 1, root, node =>
    let parent := findParent key root node
    if parent.isNone then (root, false)
    else
      match root.sub node with
      | .null => (root, false)
      | .node nl _ nr =>
        if !nl.isNull && !nr.isNull then
          let replacement := leftmostLoop nr (node ++ [Dir.R])
          match root.sub replacement with
          | .null => (root, false)
          | .node _ data _ =>
            ((removeNode fuel root replacement).1.setData node data, true)
        else
          let replacement : Node α :=
            if nl.isNull && nr.isNull then .null
            else if nl.isNull then nr
            else nl
          match parent with
          | none => (replacement, true)
          | some p =>
            if p ++ [Dir.L] = node then (root.store (p ++ [Dir.L]) replacement, true)
            else (root.store (p ++ [Dir.R]) replacement, true)

/-- Number of cells reachable from a pointer. -/
def Node.count : Node α → Nat
  | .null => 0
  | .node l _ r => l.count + 1 + r.count

/-- The member `remove(const T& item)`: the new state and the returned flag. -/
def Bstree.remove (s : Bstree α) (item : α) : Bstree α × Bool :=
  match search key s.root item with
  | some nodeptr => (⟨(removeNode key s.root.count s.root nodeptr).1, s.order - 1⟩, true)
  | none => (s, false)

/-- The private member `trim(Node<T>* node)` run with a budget of nested calls, on the
cell with address `node`. -/
def trimNode : Nat → Bstree α → Addr → Bstree α
  | 0, s, _ => s
  | fuel + 1, s, node =>
    match s.root.sub node with
    | .null => s
    | .node l d r =>
      if !l.isNull then
        if !r.isNull then
          trimNode fuel (trimNode fuel s (node ++ [Dir.L])) (node ++ [Dir.R])
        else
          trimNode fuel s (node ++ [Dir.L])
      else
        if !r.isNull then
          trimNode fuel s (node ++ [Dir.R])
        else
          (s.remove key d).1

/-- The member `trim()`. -/
def Bstree.trim (s : Bstree α) : Bstree α :=
  if !s.root.isNull then trimNode key s.root.count s [] else s

end Ops

/-- The private member `inorderTraverse(Node<T>* node, FuncType apply)`; the callback acts
on an explicit state `σ`. -/
def inorderTraverseNode (apply : α → σ → σ) : Node α → σ → σ
  | .null, st => st
  | .node l d r, st => inorderTraverseNode apply r (apply d (inorderTraverseNode apply l st))

/-- The member `inorderTraverse(FuncType apply)`. -/
def Bstree.inorderTraverse (s : Bstree α) (apply : α → σ → σ) (st : σ) : σ :=
  inorderTraverseNode apply s.root st

/-- The sequence of items a traversal hands to a callback that records its arguments. -/
def Bstree.inorderVisited (s : Bstree α) : List α :=
  s.inorderTraverse (fun x acc => acc ++ [x]) []

/-- Build a tree by `insert`-ing the items of a list, in order, into the empty tree. -/
def Bstree.ofList [LinearOrder κ] (key : α → κ) (xs : List α) : Bstree α :=
  xs.foldl (fun s x => s.insert key x) Bstree.mk0

/-- The private member `height(const Node<T>* node)`. -/
def heightNode : Node α → Int
  | .null => -1
  | .node l _ r => max (heightNode l) (heightNode r) + 1

/-- The member `height()`. -/
def Bstree.height (s : Bstree α) : Int :=
  if s.root.isNull then -1 else heightNode s.root

/-! ## Specification-level notions -/

/-- The in-order sequence of the items stored below a pointer. -/
def Node.inorder : Node α → List α
  | .null => []
  | .node l d r => l.inorder ++ d :: r.inorder

/-- The search-tree ordering invariant: at every cell, every key of the left subtree is
strictly smaller than the key of the cell and every key of the right subtree is strictly
greater. -/
def Node.Ordered [LinearOrder κ] (key : α → κ) : Node α → Prop
  | .null => True
  | .node l d r =>
    (∀ x ∈ l.inorder, key x < key d) ∧ (∀ x ∈ r.inorder, key d < key x) ∧
      l.Ordered key ∧ r.Ordered key

instance Node.decidableOrdered [LinearOrder κ] (key : α → κ) :
    (t : Node α) → Decidable (t.Ordered key)
  | .null => isTrue trivial
  | .node l d r =>
    have := Node.decidableOrdered key l
    have := Node.decidableOrdered key r
    inferInstanceAs (Decidable ((∀ x ∈ l.inorder, key x < key d) ∧
      (∀ x ∈ r.inorder, key d < key x) ∧ l.Ordered key ∧ r.Ordered key))

/-- The shape of a tree: the tree with its items forgotten. -/
def Node.shape : Node α → Node Unit
  | .null => .null
  | .node l _ r => .node l.shape () r.shape

/-- Whether the key descent from a pointer meets a cell whose key equals that of `item`. -/
def Node.hasKey [LinearOrder κ] (key : α → κ) (item : α) : Node α → Bool
  | .null => false
  | .node l d r =>
    if key d = key item then true
    else if key d > key item then l.hasKey key item
    else r.hasKey key item

/-- Functional insertion along the key descent, overwriting a cell with an equal key. -/
def Node.ins [LinearOrder κ] (key : α → κ) (item : α) : Node α → Node α
  | .null => .node .null item .null
  | .node l d r =>
    if key d = key item then .node l item r
    else if key d > key item then .node (l.ins key item) d r
    else .node l d (r.ins key item)

/-- The item of the leftmost cell below a pointer (`dflt` for the null pointer). -/
def Node.minOr : Node α → α → α
  | .null, dflt => dflt
  | .node l d _, _ => l.minOr d

/-- The tree without its leftmost cell, whose right child takes its place. -/
def Node.dropMin : Node α → Node α
  | .null => .null
  | .node l d r => if l.isNull then r else .node l.dropMin d r

/-- What a successful `remove(Node<T>*)` leaves in the slot of the removed cell. -/
def Node.unlink : Node α → Node α
  | .null => .null
  | .node l d r =>
    if !l.isNull && !r.isNull then .node l (r.minOr d) r.dropMin
    else if l.isNull && r.isNull then .null
    else if l.isNull then r
    else l

/-- Whether a pointer points to a cell without children. -/
def Node.isLeaf : Node α → Bool
  | .null => false
  | .node l _ r => l.isNull && r.isNull

/-- The tree without the cells that have no children. -/
def Node.prune : Node α → Node α
  | .null => .null
  | .node l d r => if l.isNull && r.isNull then .null else .node l.prune d r.prune

/-- Number of cells without children. -/
def Node.leaves : Node α → Nat
  | .null => 0
  | .node l _ r => if l.isNull && r.isNull then 1 else l.leaves + r.leaves

/-! ## Further members of the class -/

/-- The class `BstreeException`: the message handed to the constructor. -/
structure BstreeException where
  message : String
  deriving DecidableEq

/-- The private member `preorderTraverse(Node<T>* node, FuncType apply)`. -/
def preorderTraverseNode (apply : α → σ → σ) : Node α → σ → σ
  | .null, st => st
  | .node l d r, st => preorderTraverseNode apply r (preorderTraverseNode apply l (apply d st))

/-- The private member `postorderTraverse(Node<T>* node, FuncType apply)`. -/
def postorderTraverseNode (apply : α → σ → σ) : Node α → σ → σ
  | .null, st => st
  | .node l d r, st => apply d (postorderTraverseNode apply r (postorderTraverseNode apply l st))

/-- The member `preorderTraverse(FuncType apply)`. -/
def Bstree.preorderTraverse (s : Bstree α) (apply : α → σ → σ) (st : σ) : σ :=
  preorderTraverseNode apply s.root st

/-- The member `postorderTraverse(FuncType apply)`. -/
def Bstree.postorderTraverse (s : Bstree α) (apply : α → σ → σ) (st : σ) : σ :=
  postorderTraverseNode apply s.root st

/-- The sequence of items `preorderTraverse` hands to a recording callback. -/
def Bstree.preorderVisited (s : Bstree α) : List α :=
  s.preorderTraverse (fun x acc => acc ++ [x]) []

/-- The sequence of items `postorderTraverse` hands to a recording callback. -/
def Bstree.postorderVisited (s : Bstree α) : List α :=
  s.postorderTraverse (fun x acc => acc ++ [x]) []

/-- The private member `countLeaves(const Node<T>* node)`; it is only ever called on a
non-null pointer (the null case, a null dereference in the source, is given the value 0). -/
def countLeavesNode : Node α → Int
  | .null => 0
  | .node l _ r =>
    if !l.isNull then
      if !r.isNull then countLeavesNode l + countLeavesNode r
      else countLeavesNode l
    else if !r.isNull then countLeavesNode r
    else 1

/-- The private member `countHalves(const Node<T>* node)`; it is only ever called on a
non-null pointer (the null case, a null dereference in the source, is given the value 0). -/
def countHalvesNode : Node α → Int
  | .null => 0
  | .node l _ r =>
    if !l.isNull then
      if !r.isNull then countHalvesNode l + countHalvesNode r
      else 1 + countHalvesNode l
    else if !r.isNull then 1 + countHalvesNode r
    else 0

/-- The member `countLeaves()`. -/
def Bstree.countLeaves (s : Bstree α) : Int :=
  if s.root.isNull then 0 else countLeavesNode s.root

/-- The member `countHalves()`. -/
def Bstree.countHalves (s : Bstree α) : Int :=
  if s.root.isNull then 0 else countHalvesNode s.root

/-- The private member `balHeight(const Node<T>* node)`. -/
def balHeight : Node α → Int
  | .null => -1
  | .node l _ r =>
    if abs (balHeight l - balHeight r) > 1 ∨ balHeight l = -2 ∨ balHeight r = -2 then -2
    else max (balHeight l) (balHeight r) + 1

/-- The member `isBalanced()`. -/
def Bstree.isBalanced (s : Bstree α) : Bool :=
  if balHeight s.root = -2 then false else true

/-- The loop `while (ptr->right) ptr = ptr->right;` of `max()` followed by `ptr->data`: the
first argument is `ptr->right`, the second `ptr->data`. -/
def maxLoop : Node α → α → α
  | .null, d => d
  | .node _ e r, _ => maxLoop r e

/-- The loop `while (ptr->left) ptr = ptr->left;` of `min()` followed by `ptr->data`: the
first argument is `ptr->left`, the second `ptr->data`. -/
def minLoop : Node α → α → α
  | .null, d => d
  | .node l e _, _ => minLoop l e

/-- The member `max()`. -/
def Bstree.max (s : Bstree α) : Except BstreeException α :=
  match s.root with
  | .null => .error ⟨"Tree is empty"⟩
  | .node _ d r => .ok (maxLoop r d)

/-- The member `min()`. -/
def Bstree.min (s : Bstree α) : Except BstreeException α :=
  match s.root with
  | .null => .error ⟨"Tree is empty"⟩
  | .node l d _ => .ok (minLoop l d)

/-- The member `retrieve(const T& key)`: what it returns or throws, and the state after the
call (the member is `const` and assigns nothing). The last error stands for `nodeptr->data`
on a pointer that addresses no cell; `search` never returns one (`search_some`). -/
def Bstree.retrieve [LinearOrder κ] (key : α → κ) (s : Bstree α) (k : α) :
    Except BstreeException α × Bstree α :=
  if s.root.isNull then
    (.error ⟨"Exception:tree empty on retrieve()."⟩, s)
  else
    match search key s.root k with
    | none => (.error ⟨"Exception: non-existent key on retrieve()."⟩, s)
    | some nodeptr =>
      match s.root.sub nodeptr with
      | .null => (.error ⟨"null dereference"⟩, s)
      | .node _ d _ => (.ok d, s)

/-! ## Further specification-level notions -/

/-- The classical pre-order sequence: the item of the cell, then the left subtree, then the
right subtree. -/
def Node.preorder : Node α → List α
  | .null => []
  | .node l d r => d :: (l.preorder ++ r.preorder)

/-- The classical post-order sequence: the left subtree, then the right subtree, then the
item of the cell. -/
def Node.postorder : Node α → List α
  | .null => []
  | .node l d r => l.postorder ++ r.postorder ++ [d]

/-- The cells of a tree, each given as the pointer to it. -/
def Node.cells : Node α → List (Node α)
  | .null => []
  | .node l d r => .node l d r :: (l.cells ++ r.cells)

/-- Whether a pointer points to a cell with exactly one child. -/
def Node.isHalf : Node α → Bool
  | .null => false
  | .node l _ r => l.isNull != r.isNull

/-- The balance condition of the spec: at every cell the heights of the two subtrees differ
by at most 1. -/
def Node.Balanced : Node α → Prop
  | .null => True
  | .node l _ r => abs (heightNode l - heightNode r) ≤ 1 ∧ l.Balanced ∧ r.Balanced

/-- The right-leaning chain holding the items of a list from top to bottom. -/
def Node.chain : List α → Node α
  | [] => .null
  | x :: xs => .node .null x (Node.chain xs)

/-- States reachable from the empty tree by `insert`, `remove(key)` and `trim` calls. -/
inductive Reachable [LinearOrder κ] (key : α → κ) : Bstree α → Prop
  | init : Reachable key Bstree.mk0
  | insert (s : Bstree α) (item : α) : Reachable key s → Reachable key (s.insert key item)
  | remove (s : Bstree α) (item : α) : Reachable key s → Reachable key (s.remove key item).1
  | trim (s : Bstree α) : Reachable key s → Reachable key (s.trim key)

end BstreeADT

namespace BstreeADT

variable {α κ σ : Type}

/-! ## Slots: reading and writing by address -/

@[simp] theorem Node.sub_nil (t : Node α) : t.sub [] = t := by
  cases t <;> rfl

@[simp] theorem Node.sub_null (p : Addr) : (Node.null : Node α).sub p = .null := by
  cases p <;> rfl

@[simp] theorem Node.sub_L (l r : Node α) (d : α) (p : Addr) :
    (Node.node l d r).sub (Dir.L :: p) = l.sub p := rfl

@[simp] theorem Node.sub_R (l r : Node α) (d : α) (p : Addr) :
    (Node.node l d r).sub (Dir.R :: p) = r.sub p := rfl

theorem Node.sub_append (t : Node α) (p q : Addr) : t.sub (p ++ q) = (t.sub p).sub q := by
  induction p generalizing t with
  | nil => simp
  | cons a p ih =>
    cases t with
    | null => simp
    | node l d r => cases a <;> simp [ih]

@[simp] theorem Node.store_nil (t s : Node α) : t.store [] s = s := by
  cases t <;> rfl

@[simp] theorem Node.store_null_cons (a : Dir) (p : Addr) (s : Node α) :
    (Node.null : Node α).store (a :: p) s = .null := rfl

@[simp] theorem Node.store_L (l r s : Node α) (d : α) (p : Addr) :
    (Node.node l d r).store (Dir.L :: p) s = .node (l.store p s) d r := rfl

@[simp] theorem Node.store_R (l r s : Node α) (d : α) (p : Addr) :
    (Node.node l d r).store (Dir.R :: p) s = .node l d (r.store p s) := rfl

theorem Node.store_append (t s : Node α) (p q : Addr) :
    t.store (p ++ q) s = t.store p ((t.sub p).store q s) := by
  induction p generalizing t with
  | nil => simp
  | cons a p ih =>
    cases t with
    | null => simp
    | node l d r => cases a <;> simp [ih]

theorem Node.store_sub_self (t : Node α) (p : Addr) : t.store p (t.sub p) = t := by
  induction p generalizing t with
  | nil => simp
  | cons a p ih =>
    cases t with
    | null => simp
    | node l d r => cases a <;> simp [ih]

theorem Node.sub_store_self (t s : Node α) (p : Addr) (h : t.sub p ≠ .null) :
    (t.store p s).sub p = s := by
  induction p generalizing t with
  | nil => simp
  | cons a p ih =>
    cases t with
    | null => simp at h
    | node l d r =>
      cases a
      · simp only [Node.sub_L] at h; simp [ih l h]
      · simp only [Node.sub_R] at h; simp [ih r h]

theorem Node.store_store (t a b : Node α) (p : Addr) :
    (t.store p a).store p b = t.store p b := by
  induction p generalizing t with
  | nil => simp
  | cons x p ih =>
    cases t with
    | null => simp
    | node l d r => cases x <;> simp [ih]

theorem Node.setData_store (t a b : Node α) (d x : α) (p : Addr) :
    (t.store p (.node a d b)).setData p x = t.store p (.node a x b) := by
  induction p generalizing t with
  | nil => simp [Node.setData]
  | cons y p ih =>
    cases t with
    | null => simp [Node.setData]
    | node l e r => cases y <;> simp [Node.setData, ih]

/-! ## In-order sequence and the ordering invariant -/

@[simp] theorem Node.isNull_iff (t : Node α) : t.isNull = true ↔ t = .null := by
  cases t <;> simp [Node.isNull]

@[simp] theorem Node.isNull_eq_false_iff (t : Node α) : t.isNull = false ↔ t ≠ .null := by
  cases t <;> simp [Node.isNull]

@[simp] theorem Node.isNull_null : (Node.null : Node α).isNull = true := rfl

@[simp] theorem Node.isNull_node (l r : Node α) (d : α) :
    (Node.node l d r).isNull = false := rfl

@[simp] theorem Node.inorder_null : (Node.null : Node α).inorder = [] := rfl

@[simp] theorem Node.inorder_node (l r : Node α) (d : α) :
    (Node.node l d r).inorder = l.inorder ++ d :: r.inorder := rfl

/-- Writing a slot that holds a cell replaces a contiguous block of the in-order sequence. -/
theorem Node.inorder_store (t : Node α) (p : Addr) (h : t.sub p ≠ .null) :
    ∃ pre post : List α, ∀ s : Node α, (t.store p s).inorder = pre ++ s.inorder ++ post := by
  induction p generalizing t with
  | nil => exact ⟨[], [], fun s => by simp⟩
  | cons a p ih =>
    cases t with
    | null => simp at h
    | node l d r =>
      cases a
      · obtain ⟨pre, post, hs⟩ := ih l (by simpa using h)
        exact ⟨pre, post ++ d :: r.inorder, fun s => by simp [hs]⟩
      · obtain ⟨pre, post, hs⟩ := ih r (by simpa using h)
        exact ⟨l.inorder ++ d :: pre, post, fun s => by simp [hs]⟩

theorem Node.mem_inorder_of_sub {t l r : Node α} {d : α} {p : Addr}
    (h : t.sub p = .node l d r) : d ∈ t.inorder := by
  induction p generalizing t with
  | nil => simp at h; subst h; simp
  | cons a p ih =>
    cases t with
    | null => simp at h
    | node tl e tr =>
      cases a
      · simp only [Node.sub_L] at h; simp [ih h]
      · simp only [Node.sub_R] at h; simp [ih h]

theorem Node.exists_sub_of_mem {t : Node α} {d : α} (h : d ∈ t.inorder) :
    ∃ (p : Addr) (l r : Node α), t.sub p = .node l d r := by
  induction t with
  | null => simp at h
  | node tl e tr ihl ihr =>
    simp only [Node.inorder_node, List.mem_append, List.mem_cons] at h
    rcases h with h | h | h
    · obtain ⟨p, l, r, hp⟩ := ihl h
      exact ⟨Dir.L :: p, l, r, by simpa using hp⟩
    · exact ⟨[], tl, tr, by simp [h]⟩
    · obtain ⟨p, l, r, hp⟩ := ihr h
      exact ⟨Dir.R :: p, l, r, by simpa using hp⟩

section Order

variable [LinearOrder κ] (key : α → κ)

@[simp] theorem Node.ordered_null : (Node.null : Node α).Ordered key := trivial

theorem Node.ordered_node (l r : Node α) (d : α) :
    (Node.node l d r).Ordered key ↔
      (∀ x ∈ l.inorder, key x < key d) ∧ (∀ x ∈ r.inorder, key d < key x) ∧
        l.Ordered key ∧ r.Ordered key := Iff.rfl

/-- The ordering invariant says exactly that the in-order sequence has strictly increasing
keys. -/
theorem Node.ordered_iff_pairwise (t : Node α) :
    t.Ordered key ↔ t.inorder.Pairwise (fun a b => key a < key b) := by
  induction t with
  | null => simp
  | node l d r ihl ihr =>
    rw [Node.ordered_node, ihl, ihr, Node.inorder_node, List.pairwise_append,
      List.pairwise_cons]
    constructor
    · rintro ⟨h1, h2, h3, h4⟩
      refine ⟨h3, ⟨h2, h4⟩, ?_⟩
      intro a ha b hb
      rcases List.mem_cons.1 hb with rfl | hb
      · exact h1 a ha
      · exact lt_trans (h1 a ha) (h2 b hb)
    · rintro ⟨h3, ⟨h2, h4⟩, h5⟩
      exact ⟨fun x hx => h5 x hx d (List.mem_cons_self _ _), h2, h3, h4⟩

theorem Node.ordered_sub {t : Node α} (h : t.Ordered key) (p : Addr) :
    (t.sub p).Ordered key := by
  induction p generalizing t with
  | nil => simpa using h
  | cons a p ih =>
    cases t with
    | null => simp
    | node l d r =>
      rw [Node.ordered_node] at h
      cases a
      · simpa using ih h.2.2.1
      · simpa using ih h.2.2.2

/-- Replacing the subtree in a slot by one whose in-order sequence is a subsequence of the
old one keeps the ordering invariant. -/
theorem Node.ordered_store_sublist {t : Node α} (h : t.Ordered key) (p : Addr) (s : Node α)
    (hp : t.sub p ≠ .null) (hs : s.inorder.Sublist (t.sub p).inorder) :
    (t.store p s).Ordered key := by
  obtain ⟨pre, post, hst⟩ := Node.inorder_store t p hp
  have h0 := hst (t.sub p)
  rw [Node.store_sub_self] at h0
  rw [Node.ordered_iff_pairwise] at h ⊢
  rw [hst s]
  rw [h0] at h
  exact h.sublist (((List.Sublist.refl pre).append hs).append (List.Sublist.refl post))

end Order

/-! ## The pointer walks `search`, `findParent` and the leftmost descent -/

section Walks

variable [LinearOrder κ] (key : α → κ)

/-- In an ordered tree the key descent of `search` arrives at the cell holding the key. -/
theorem searchLoop_of_sub {t : Node α} (h : t.Ordered key) (q tmp : Addr)
    {l r : Node α} {d item : α} (hq : t.sub q = .node l d r) (hk : key d = key item) :
    searchLoop key item t tmp = some (tmp ++ q) := by
  induction q generalizing t tmp with
  | nil =>
    simp only [Node.sub_nil] at hq
    subst hq
    simp [searchLoop, hk]
  | cons a q ih =>
    cases t with
    | null => simp at hq
    | node tl e tr =>
      rw [Node.ordered_node] at h
      cases a
      · simp only [Node.sub_L] at hq
        have hlt : key item < key e := hk ▸ h.1 d (Node.mem_inorder_of_sub hq)
        have hne : key e ≠ key item := ne_of_gt hlt
        simp only [searchLoop, hne, if_false, gt_iff_lt, hlt, if_true]
        rw [ih h.2.2.1 _ hq]
        simp
      · simp only [Node.sub_R] at hq
        have hlt : key e < key item := hk ▸ h.2.1 d (Node.mem_inorder_of_sub hq)
        have hne : key e ≠ key item := ne_of_lt hlt
        simp only [searchLoop, hne, if_false, gt_iff_lt, not_lt_of_gt hlt]
        rw [ih h.2.2.2 _ hq]
        simp

/-- Whatever `search` returns is the address of a cell whose key equals the searched one. -/
theorem searchLoop_some {t : Node α} {tmp a : Addr} {item : α}
    (h : searchLoop key item t tmp = some a) :
    ∃ (q : Addr) (l r : Node α) (d : α),
      a = tmp ++ q ∧ t.sub q = .node l d r ∧ key d = key item := by
  induction t generalizing tmp with
  | null => simp [searchLoop] at h
  | node tl e tr ihl ihr =>
    unfold searchLoop at h
    split_ifs at h with h1 h2
    · exact ⟨[], tl, tr, e, by simpa using (Option.some.inj h).symm, by simp, h1⟩
    · obtain ⟨q, l, r, d, ha, hq, hk⟩ := ihl h
      exact ⟨Dir.L :: q, l, r, d, by simpa using ha, by simpa using hq, hk⟩
    · obtain ⟨q, l, r, d, ha, hq, hk⟩ := ihr h
      exact ⟨Dir.R :: q, l, r, d, by simpa using ha, by simpa using hq, hk⟩

theorem search_of_sub {root : Node α} (h : root.Ordered key) (p : Addr)
    {l r : Node α} {d item : α} (hp : root.sub p = .node l d r) (hk : key d = key item) :
    search key root item = some p := by
  simpa [search] using searchLoop_of_sub key h p [] hp hk

theorem search_some {root : Node α} {p : Addr} {item : α}
    (h : search key root item = some p) :
    ∃ (l r : Node α) (d : α), root.sub p = .node l d r ∧ key d = key item := by
  obtain ⟨q, l, r, d, ha, hq, hk⟩ := searchLoop_some key h
  simp only [List.nil_append] at ha
  subst ha
  exact ⟨l, r, d, hq, hk⟩

theorem search_none_of_absent {root : Node α} {item : α}
    (h : ∀ d ∈ root.inorder, key d ≠ key item) : search key root item = none := by
  cases hs : search key root item with
  | none => rfl
  | some p =>
    obtain ⟨l, r, d, hq, hk⟩ := search_some key hs
    exact absurd hk (h d (Node.mem_inorder_of_sub hq))

/-- In an ordered tree the key descent of `findParent` meets the slot holding the cell. -/
theorem findParentLoop_of_sub {t : Node α} (h : t.Ordered key) (a : Dir) (q tmp : Addr)
    {l r : Node α} {d nd : α} (hq : t.sub (a :: q) = .node l d r) (hk : key nd = key d) :
    findParentLoop key nd (tmp ++ a :: q) t tmp = some (tmp ++ (a :: q).dropLast) := by
  induction q generalizing t tmp a with
  | nil =>
    cases t with
    | null => simp at hq
    | node tl e tr =>
      rw [Node.ordered_node] at h
      cases a
      · simp only [Node.sub_L] at hq
        have hlt : key nd < key e := hk ▸ h.1 d (Node.mem_inorder_of_sub hq)
        simp [findParentLoop, hlt]
      · simp only [Node.sub_R] at hq
        have hlt : key e < key nd := hk ▸ h.2.1 d (Node.mem_inorder_of_sub hq)
        simp [findParentLoop, not_lt_of_gt hlt]
  | cons b q ih =>
    cases t with
    | null => simp at hq
    | node tl e tr =>
      rw [Node.ordered_node] at h
      cases a
      · simp only [Node.sub_L] at hq
        have hlt : key nd < key e := hk ▸ h.1 d (Node.mem_inorder_of_sub hq)
        have := ih h.2.2.1 b (tmp ++ [Dir.L]) hq
        simp only [List.append_assoc, List.singleton_append] at this
        simp [findParentLoop, hlt, this]
      · simp only [Node.sub_R] at hq
        have hlt : key e < key nd := hk ▸ h.2.1 d (Node.mem_inorder_of_sub hq)
        have := ih h.2.2.2 b (tmp ++ [Dir.R]) hq
        simp only [List.append_assoc, List.singleton_append] at this
        simp [findParentLoop, not_lt_of_gt hlt, this]

theorem findParent_nil (root : Node α) : findParent key root [] = none := by
  simp [findParent]

/-- In an ordered tree `findParent` returns the address of the owner of the slot. -/
theorem findParent_of_sub {root : Node α} (h : root.Ordered key) (p : Addr) (a : Dir)
    (hp : root.sub (p ++ [a]) ≠ .null) : findParent key root (p ++ [a]) = some p := by
  cases hc : root.sub (p ++ [a]) with
  | null => exact absurd hc hp
  | node l d r =>
    have hne : p ++ [a] ≠ [] := by simp
    obtain ⟨b, q, hbq⟩ := List.exists_cons_of_ne_nil hne
    have := findParentLoop_of_sub key h b q [] (hbq ▸ hc) (rfl : key d = key d)
    simp only [List.nil_append] at this
    rw [← hbq] at this
    simp only [findParent, hne, if_false, hc]
    simpa using this

end Walks

theorem leftmostLoop_append (t : Node α) (a : Addr) :
    leftmostLoop t a = a ++ leftmostLoop t [] := by
  induction t generalizing a with
  | null => simp [leftmostLoop]
  | node l d r ihl _ =>
    unfold leftmostLoop
    split_ifs
    · simp
    · rw [ihl (a ++ [Dir.L]), ihl ([] ++ [Dir.L])]
      simp

/-- The leftmost descent stops at the cell holding the least item, which has no left
child; storing that cell's right child into its slot drops the least item. -/
theorem leftmostLoop_spec (t : Node α) (h : t ≠ .null) (x : α) :
    ∃ mr : Node α, t.sub (leftmostLoop t []) = .node .null (t.minOr x) mr ∧
      t.store (leftmostLoop t []) mr = t.dropMin := by
  induction t generalizing x with
  | null => exact absurd rfl h
  | node l d r ihl _ =>
    cases hl : l with
    | null => exact ⟨r, by simp [leftmostLoop, Node.minOr, Node.isNull], by
        simp [leftmostLoop, Node.dropMin, Node.isNull]⟩
    | node ll ld lr =>
      obtain ⟨mr, h1, h2⟩ := ihl (by simp [hl]) d
      rw [hl] at h1 h2
      refine ⟨mr, ?_, ?_⟩
      · unfold leftmostLoop
        simp only [Node.isNull, Bool.false_eq_true, if_false, List.nil_append]
        rw [leftmostLoop_append]
        simpa [Node.minOr] using h1
      · unfold leftmostLoop
        simp only [Node.isNull, Bool.false_eq_true, if_false, List.nil_append]
        rw [leftmostLoop_append]
        simpa [Node.dropMin, Node.isNull] using h2

theorem Node.inorder_dropMin (t : Node α) (h : t ≠ .null) (x : α) :
    t.inorder = t.minOr x :: t.dropMin.inorder := by
  induction t generalizing x with
  | null => exact absurd rfl h
  | node l d r ihl _ =>
    cases hl : l with
    | null => simp [Node.minOr, Node.dropMin, Node.isNull]
    | node ll ld lr =>
      have := ihl (by simp [hl]) d
      rw [hl] at this
      simp [Node.minOr, Node.dropMin, Node.isNull, this]

/-- Unlinking a cell removes exactly its item from the in-order sequence. -/
theorem Node.inorder_unlink (l r : Node α) (d : α) :
    (Node.node l d r).unlink.inorder = l.inorder ++ r.inorder := by
  unfold Node.unlink
  cases l with
  | null => cases r <;> simp [Node.isNull]
  | node ll ld lr =>
    cases r with
    | null => simp [Node.isNull]
    | node rl rd rr =>
      simp only [Node.isNull, Bool.not_false, Bool.and_self, if_true]
      rw [Node.inorder_node, ← Node.inorder_dropMin _ (by simp) d]

/-! ## `remove(Node<T>*)` and `remove(const T&)` on ordered trees -/

theorem Node.store_child_L {t l r : Node α} {d : α} (n : Addr) (x : Node α)
    (h : t.sub n = .node l d r) : t.store (n ++ [Dir.L]) x = t.store n (.node x d r) := by
  rw [Node.store_append, h]; simp

theorem Node.store_child_R {t l r : Node α} {d : α} (n : Addr) (x : Node α)
    (h : t.sub n = .node l d r) : t.store (n ++ [Dir.R]) x = t.store n (.node l d x) := by
  rw [Node.store_append, h]; simp

theorem Addr.eq_nil_or_snoc (q : Addr) : q = [] ∨ ∃ (p : Addr) (a : Dir), q = p ++ [a] := by
  rcases List.eq_nil_or_concat q with h | ⟨p, a, h⟩
  · exact Or.inl h
  · exact Or.inr ⟨p, a, by simpa using h⟩

theorem Node.count_sub_add_length_le (t : Node α) (p : Addr) (h : t.sub p ≠ .null) :
    (t.sub p).count + p.length ≤ t.count := by
  induction p generalizing t with
  | nil => simp
  | cons a p ih =>
    cases t with
    | null => simp at h
    | node l d r =>
      cases a
      · have := ih l (by simpa using h)
        simp only [Node.sub_L, List.length_cons, Node.count]
        omega
      · have := ih r (by simpa using h)
        simp only [Node.sub_R, List.length_cons, Node.count]
        omega

section Remove

variable [LinearOrder κ] (key : α → κ)

/-- The root has no parent: `remove(Node<T>*)` on the root returns `false` at once and
changes nothing. -/
theorem removeNode_root (fuel : Nat) (root : Node α) :
    removeNode key fuel root [] = (root, false) := by
  cases fuel with
  | zero => rfl
  | succ f => simp [removeNode, findParent_nil]

/-- The branch of `remove(Node<T>*)` for a cell, not the root, with at most one child. -/
theorem removeNode_simple {root : Node α} (h : root.Ordered key) (p : Addr) (a : Dir)
    {nl nr : Node α} {d : α} (hp : root.sub (p ++ [a]) = .node nl d nr)
    (hc : nl = .null ∨ nr = .null) (fuel : Nat) (hf : 1 ≤ fuel) :
    removeNode key fuel root (p ++ [a]) =
      (root.store (p ++ [a]) (Node.node nl d nr).unlink, true) := by
  obtain ⟨f, rfl⟩ : ∃ f, fuel = f + 1 := ⟨fuel - 1, by omega⟩
  have hfp := findParent_of_sub key h p a (by rw [hp]; simp)
  have hcond : (!nl.isNull && !nr.isNull) = false := by
    rcases hc with rfl | rfl <;> simp [Node.isNull]
  unfold removeNode
  simp only [hfp, Option.isNone_some, Bool.false_eq_true, if_false, hp, hcond]
  unfold Node.unlink
  simp only [hcond, Bool.false_eq_true, if_false]
  cases a
  · simp
  · simp

/-- On an ordered tree `remove(Node<T>*)`, called on a cell that is not the root, unlinks
the cell and returns `true`. -/
theorem removeNode_of_sub {root : Node α} (h : root.Ordered key) (p : Addr) (a : Dir)
    {nl nr : Node α} {d : α} (hp : root.sub (p ++ [a]) = .node nl d nr)
    (fuel : Nat) (hf : 2 ≤ fuel) :
    removeNode key fuel root (p ++ [a]) =
      (root.store (p ++ [a]) (Node.node nl d nr).unlink, true) := by
  by_cases hc : nl = .null ∨ nr = .null
  · exact removeNode_simple key h p a hp hc fuel (by omega)
  · push_neg at hc
    obtain ⟨hl, hr⟩ := hc
    obtain ⟨f, rfl⟩ : ∃ f, fuel = f + 1 := ⟨fuel - 1, by omega⟩
    have hfp := findParent_of_sub key h p a (by rw [hp]; simp)
    have hcond : (!nl.isNull && !nr.isNull) = true := by
      cases nl <;> cases nr <;> simp_all [Node.isNull]
    obtain ⟨mr, hm1, hm2⟩ := leftmostLoop_spec nr hr d
    have hrep : leftmostLoop nr (p ++ [a] ++ [Dir.R]) =
        p ++ [a] ++ ([Dir.R] ++ leftmostLoop nr []) := by
      rw [leftmostLoop_append]; simp
    have hsub : root.sub (p ++ [a] ++ ([Dir.R] ++ leftmostLoop nr [])) =
        .node .null (nr.minOr d) mr := by
      rw [Node.sub_append, hp, Node.sub_append]
      simpa using hm1
    -- the nested call unlinks the leftmost cell of the right subtree
    have hnested : (removeNode key f root (p ++ [a] ++ ([Dir.R] ++ leftmostLoop nr []))).1 =
        root.store (p ++ [a] ++ ([Dir.R] ++ leftmostLoop nr [])) mr := by
      have hne : p ++ [a] ++ ([Dir.R] ++ leftmostLoop nr []) ≠ [] := by simp
      rcases Addr.eq_nil_or_snoc (p ++ [a] ++ ([Dir.R] ++ leftmostLoop nr [])) with
        h0 | ⟨p', a', hpa⟩
      · exact absurd h0 hne
      · rw [hpa] at hsub ⊢
        rw [removeNode_simple key h p' a' hsub (Or.inl rfl) f (by omega)]
        cases mr <;> simp [Node.unlink, Node.isNull]
    unfold removeNode
    simp only [hfp, Option.isNone_some, Bool.false_eq_true, if_false, hp, hcond, if_true]
    rw [hrep, hsub]
    simp only [hnested]
    have hst : root.store (p ++ [a] ++ ([Dir.R] ++ leftmostLoop nr [])) mr =
        root.store (p ++ [a]) (.node nl d nr.dropMin) := by
      rw [Node.store_append, hp]
      simp [Node.store_append, hm2]
    rw [hst, Node.setData_store]
    simp [Node.unlink, hcond]

/-- The three outcomes of `remove(const T&)` on an ordered tree. -/
theorem Bstree.remove_absent (s : Bstree α) (item : α)
    (h : ∀ d ∈ s.root.inorder, key d ≠ key item) : s.remove key item = (s, false) := by
  simp [Bstree.remove, search_none_of_absent key h]

theorem Bstree.remove_at_root (s : Bstree α) (item : α)
    (h : search key s.root item = some []) :
    s.remove key item = (⟨s.root, s.order - 1⟩, true) := by
  simp [Bstree.remove, h, removeNode_root]

theorem Bstree.remove_below_root (s : Bstree α) (item : α) (hO : s.root.Ordered key)
    (p : Addr) (a : Dir) (h : search key s.root item = some (p ++ [a])) :
    s.remove key item =
      (⟨s.root.store (p ++ [a]) (s.root.sub (p ++ [a])).unlink, s.order - 1⟩, true) := by
  obtain ⟨l, r, d, hq, -⟩ := search_some key h
  have hcount : 2 ≤ s.root.count := by
    have := Node.count_sub_add_length_le s.root (p ++ [a]) (by rw [hq]; simp)
    rw [hq] at this
    simp only [Node.count, List.length_append, List.length_singleton] at this
    omega
  simp only [Bstree.remove, h]
  rw [removeNode_of_sub key hO p a hq _ hcount, hq]

theorem Node.unlink_sublist (t : Node α) : t.unlink.inorder.Sublist t.inorder := by
  cases t with
  | null => simp [Node.unlink]
  | node l d r =>
    rw [Node.inorder_unlink, Node.inorder_node]
    exact (List.Sublist.refl _).append (List.sublist_cons_self _ _)

/-- `remove(const T&)` keeps the ordering invariant. -/
theorem Bstree.remove_ordered (s : Bstree α) (item : α) (hO : s.root.Ordered key) :
    (s.remove key item).1.root.Ordered key := by
  cases hs : search key s.root item with
  | none => simpa [Bstree.remove, hs] using hO
  | some q =>
    rcases Addr.eq_nil_or_snoc q with rfl | ⟨p, a, rfl⟩
    · rw [Bstree.remove_at_root key s item hs]; exact hO
    · rw [Bstree.remove_below_root key s item hO p a hs]
      obtain ⟨l, r, d, hq, -⟩ := search_some key hs
      exact Node.ordered_store_sublist key hO _ _ (by rw [hq]; simp) (Node.unlink_sublist _)

end Remove

/-! ## `trim(Node<T>*)` and `trim()` on ordered trees -/

theorem Node.prune_sublist (t : Node α) : t.prune.inorder.Sublist t.inorder := by
  induction t with
  | null => simp [Node.prune]
  | node l d r ihl ihr =>
    unfold Node.prune
    split_ifs
    · simp
    · exact ihl.append (ihr.cons₂ d)

theorem Node.ordered_of_sublist [LinearOrder κ] (key : α → κ) {s t : Node α}
    (h : t.Ordered key) (hs : s.inorder.Sublist t.inorder) : s.Ordered key := by
  rw [Node.ordered_iff_pairwise] at h ⊢
  exact h.sublist hs

section Trim

variable [LinearOrder κ] (key : α → κ)

/-- On an ordered tree `trim(Node<T>*)`, called on a cell that is not a childless root,
prunes the subtree of that cell and lowers `order` by the number of its leaves. -/
theorem trimNode_spec (fuel : Nat) (s : Bstree α) (n : Addr) (hO : s.root.Ordered key)
    (hn : s.root.sub n ≠ .null) (hroot : n = [] → (s.root.sub n).isLeaf = false)
    (hf : (s.root.sub n).count ≤ fuel) :
    trimNode key fuel s n =
      ⟨s.root.store n (s.root.sub n).prune, s.order - (s.root.sub n).leaves⟩ := by
  induction fuel generalizing s n with
  | zero =>
    cases hc : s.root.sub n with
    | null => exact absurd hc hn
    | node l d r => rw [hc] at hf; simp [Node.count] at hf
  | succ f ih =>
    cases hc : s.root.sub n with
    | null => exact absurd hc hn
    | node l d r =>
      rw [hc] at hf
      simp only [Node.count] at hf
      have hsubL : s.root.sub (n ++ [Dir.L]) = l := by rw [Node.sub_append, hc]; simp
      have hsubR : s.root.sub (n ++ [Dir.R]) = r := by rw [Node.sub_append, hc]; simp
      unfold trimNode
      simp only [hc]
      by_cases hl : l = .null <;> by_cases hr : r = .null
      · -- the cell is a leaf: it is removed through `remove(node->data)`
        subst hl; subst hr
        have hne : n ≠ [] := by
          intro h0
          have := hroot h0
          rw [hc] at this
          simp [Node.isLeaf, Node.isNull] at this
        rcases Addr.eq_nil_or_snoc n with h0 | ⟨p, a, rfl⟩
        · exact absurd h0 hne
        · have hs := search_of_sub key hO (p ++ [a]) hc (rfl : key d = key d)
          simp only [Node.isNull_null, Node.isNull_node, Bool.not_true, Bool.false_eq_true, if_false]
          rw [Bstree.remove_below_root key s d hO p a hs, hc]
          simp [Node.unlink, Node.prune, Node.leaves]
      · subst hl
        have hrn : r.isNull = false := by simpa using hr
        simp only [Node.isNull_null, Node.isNull_node, Bool.not_true, Bool.false_eq_true, if_false, hrn,
          Bool.not_false, if_true]
        rw [ih s (n ++ [Dir.R]) hO (by rw [hsubR]; exact hr) (by simp) (by rw [hsubR]; omega)]
        rw [hsubR, Node.store_child_R n _ hc]
        simp [Node.prune, Node.leaves, hrn]
      · subst hr
        have hln : l.isNull = false := by simpa using hl
        simp only [Node.isNull_null, Node.isNull_node, Bool.not_true, Bool.false_eq_true, if_false, hln,
          Bool.not_false, if_true]
        rw [ih s (n ++ [Dir.L]) hO (by rw [hsubL]; exact hl) (by simp) (by rw [hsubL]; omega)]
        rw [hsubL, Node.store_child_L n _ hc]
        simp [Node.prune, Node.leaves, hln]
      · have hln : l.isNull = false := by simpa using hl
        have hrn : r.isNull = false := by simpa using hr
        simp only [hln, hrn, Bool.not_false, if_true]
        rw [ih s (n ++ [Dir.L]) hO (by rw [hsubL]; exact hl) (by simp) (by rw [hsubL]; omega)]
        rw [hsubL, Node.store_child_L n _ hc]
        have hO1 : (s.root.store n (.node l.prune d r)).Ordered key := by
          refine Node.ordered_store_sublist key hO n _ hn ?_
          rw [hc]
          exact (Node.prune_sublist l).append (List.Sublist.refl _)
        have hc1 : (s.root.store n (.node l.prune d r)).sub n = .node l.prune d r :=
          Node.sub_store_self _ _ _ hn
        have hsubR1 : (s.root.store n (.node l.prune d r)).sub (n ++ [Dir.R]) = r := by
          rw [Node.sub_append, hc1]; simp
        rw [ih _ (n ++ [Dir.R]) hO1 (by rw [hsubR1]; exact hr) (by simp)
          (by rw [hsubR1]; omega)]
        simp only [hsubR1]
        rw [Node.store_child_R n _ hc1, Node.store_store]
        simp only [Node.prune, Node.leaves, hln, hrn, Bool.false_and, Bool.false_eq_true,
          if_false, Bstree.mk.injEq, true_and]
        push_cast
        ring

/-- On an ordered tree with at least two cells `trim()` prunes the tree and lowers `order` by
the number of leaves. -/
theorem Bstree.trim_of_not_leaf (s : Bstree α) (hO : s.root.Ordered key)
    (hn : s.root ≠ .null) (hl : s.root.isLeaf = false) :
    s.trim key = ⟨s.root.prune, s.order - s.root.leaves⟩ := by
  have hnn : s.root.isNull = false := by simpa using hn
  simp only [Bstree.trim, hnn, Bool.not_false, if_true]
  rw [trimNode_spec key _ s [] hO (by simpa using hn) (fun _ => by simpa using hl)
    (by simp)]
  simp

/-- On a one-cell tree `trim()` leaves the cell in place and still lowers `order`. -/
theorem Bstree.trim_of_leaf (s : Bstree α) (d : α) (h : s.root = .node .null d .null) :
    s.trim key = ⟨s.root, s.order - 1⟩ := by
  have hs : search key s.root d = some [] := by
    rw [h]; simp [search, searchLoop]
  simp only [Bstree.trim, h, Node.isNull_node, Bool.not_false, if_true, Node.count]
  simp only [trimNode, Node.sub_nil, Node.isNull_null, Bool.not_true, Bool.false_eq_true, if_false]
  have := Bstree.remove_at_root key s d hs
  rw [h] at this
  have hs' : s = ⟨.node .null d .null, s.order⟩ := by
    cases s; simp_all
  rw [hs'] at this ⊢
  simpa using congrArg Prod.fst this

theorem Bstree.trim_null (s : Bstree α) (h : s.root = .null) : s.trim key = s := by
  simp [Bstree.trim, h, Node.isNull]

/-- The method `trim()` keeps the ordering invariant. -/
theorem Bstree.trim_ordered (s : Bstree α) (hO : s.root.Ordered key) :
    (s.trim key).root.Ordered key := by
  cases hr : s.root with
  | null => rw [Bstree.trim_null key s hr, hr]; simp
  | node l d r =>
    by_cases hl : s.root.isLeaf = true
    · have : s.root = .node .null d .null := by
        rw [hr] at hl ⊢
        simp only [Node.isLeaf, Bool.and_eq_true, Node.isNull_iff] at hl
        rw [hl.1, hl.2]
      rw [Bstree.trim_of_leaf key s d this]
      exact hO
    · rw [Bstree.trim_of_not_leaf key s hO (by rw [hr]; simp) (by simpa using hl)]
      exact Node.ordered_of_sublist key hO (Node.prune_sublist _)

end Trim

/-! ## `insert`, `inTree` and the in-order traversal -/

theorem inorderTraverseNode_record (t : Node α) (acc : List α) :
    inorderTraverseNode (fun x acc => acc ++ [x]) t acc = acc ++ t.inorder := by
  induction t generalizing acc with
  | null => simp [inorderTraverseNode]
  | node l d r ihl ihr => simp [inorderTraverseNode, ihl, ihr]

theorem Bstree.inorderVisited_eq (s : Bstree α) : s.inorderVisited = s.root.inorder := by
  simp [Bstree.inorderVisited, Bstree.inorderTraverse, inorderTraverseNode_record]

theorem Node.shape_setData (t : Node α) (p : Addr) (x : α) :
    (t.setData p x).shape = t.shape := by
  induction p generalizing t with
  | nil => cases t <;> simp [Node.setData, Node.shape]
  | cons a p ih =>
    cases t with
    | null => simp [Node.setData]
    | node l d r => cases a <;> simp [Node.setData, Node.shape, ih]

section Insert

variable [LinearOrder κ] (key : α → κ)

theorem insertLoop_fst (item : α) (t : Node α) (h : t ≠ .null) :
    (insertLoop key item t).1 = t.ins key item := by
  induction t with
  | null => exact absurd rfl h
  | node l d r ihl ihr =>
    unfold insertLoop Node.ins
    split_ifs with h1 h2 h3 h4
    · rfl
    · rw [(Node.isNull_iff l).1 h3]; rfl
    · simp [ihl (by simpa using h3)]
    · rw [(Node.isNull_iff r).1 h4]; rfl
    · simp [ihr (by simpa using h4)]

theorem insertLoop_snd (item : α) (t : Node α) (h : t ≠ .null) :
    (insertLoop key item t).2 = !t.hasKey key item := by
  induction t with
  | null => exact absurd rfl h
  | node l d r ihl ihr =>
    unfold insertLoop Node.hasKey
    split_ifs with h1 h2 h3 h4
    · rfl
    · rw [(Node.isNull_iff l).1 h3]; rfl
    · simp [ihl (by simpa using h3)]
    · rw [(Node.isNull_iff r).1 h4]; rfl
    · simp [ihr (by simpa using h4)]

theorem inTreeLoop_eq (item : α) (t : Node α) :
    inTreeLoop key item t = t.hasKey key item := by
  induction t with
  | null => rfl
  | node l d r ihl ihr =>
    unfold inTreeLoop Node.hasKey
    split_ifs with h1 h2 h3 h4
    · rfl
    · rw [(Node.isNull_iff l).1 h3]; rfl
    · exact ihl
    · rw [(Node.isNull_iff r).1 h4]; rfl
    · exact ihr

/-- The method `insert` is the functional insertion, and `order` grows exactly when the key
descent does not meet the key. -/
theorem Bstree.insert_eq (s : Bstree α) (item : α) :
    s.insert key item =
      ⟨s.root.ins key item, if s.root.hasKey key item then s.order else s.order + 1⟩ := by
  unfold Bstree.insert
  split_ifs with h1 h2 h3 h4 h5
  · rw [(Node.isNull_iff _).1 h1] at h2; simp [Node.hasKey] at h2
  · rw [(Node.isNull_iff _).1 h1]; rfl
  · rw [insertLoop_snd key item _ (by simpa using h1)] at h3; simp [h4] at h3
  · rw [insertLoop_fst key item _ (by simpa using h1)]
  · rw [insertLoop_fst key item _ (by simpa using h1)]
  · rw [insertLoop_snd key item _ (by simpa using h1)] at h3; simp [h5] at h3

theorem Bstree.inTree_eq (s : Bstree α) (item : α) :
    s.inTree key item = s.root.hasKey key item := by
  unfold Bstree.inTree
  split_ifs with h1
  · rw [(Node.isNull_iff _).1 h1]; rfl
  · exact inTreeLoop_eq key item _

/-- On an ordered tree the key descent meets a key exactly when it is stored. -/
theorem Node.hasKey_iff {t : Node α} (h : t.Ordered key) (item : α) :
    t.hasKey key item = true ↔ ∃ d ∈ t.inorder, key d = key item := by
  induction t with
  | null => simp [Node.hasKey]
  | node l d r ihl ihr =>
    rw [Node.ordered_node] at h
    obtain ⟨h1, h2, h3, h4⟩ := h
    unfold Node.hasKey
    split_ifs with e1 e2
    · simp only [true_iff]
      exact ⟨d, by simp, e1⟩
    · rw [ihl h3]
      constructor
      · rintro ⟨x, hx, hk⟩
        exact ⟨x, by simp [hx], hk⟩
      · rintro ⟨x, hx, hk⟩
        simp only [Node.inorder_node, List.mem_append, List.mem_cons] at hx
        rcases hx with hx | rfl | hx
        · exact ⟨x, hx, hk⟩
        · exact absurd hk e1
        · have := h2 x hx
          rw [hk] at this
          exact absurd e2 (not_lt_of_gt this)
    · rw [ihr h4]
      constructor
      · rintro ⟨x, hx, hk⟩
        exact ⟨x, by simp [hx], hk⟩
      · rintro ⟨x, hx, hk⟩
        simp only [Node.inorder_node, List.mem_append, List.mem_cons] at hx
        rcases hx with hx | rfl | hx
        · have := h1 x hx
          rw [hk] at this
          exact absurd this e2
        · exact absurd hk e1
        · exact ⟨x, hx, hk⟩

theorem Node.mem_ins {t : Node α} {item x : α} (h : x ∈ (t.ins key item).inorder) :
    x = item ∨ x ∈ t.inorder := by
  induction t with
  | null => simpa [Node.ins] using h
  | node l d r ihl ihr =>
    unfold Node.ins at h
    split_ifs at h with h1 h2
    · simp only [Node.inorder_node, List.mem_append, List.mem_cons] at h ⊢
      tauto
    · simp only [Node.inorder_node, List.mem_append, List.mem_cons] at h ⊢
      rcases h with h | h | h
      · rcases ihl h with h | h <;> tauto
      · tauto
      · tauto
    · simp only [Node.inorder_node, List.mem_append, List.mem_cons] at h ⊢
      rcases h with h | h | h
      · tauto
      · tauto
      · rcases ihr h with h | h <;> tauto

/-- Functional insertion keeps the ordering invariant. -/
theorem Node.ins_ordered {t : Node α} (h : t.Ordered key) (item : α) :
    (t.ins key item).Ordered key := by
  induction t with
  | null => simp [Node.ins, Node.ordered_node]
  | node l d r ihl ihr =>
    rw [Node.ordered_node] at h
    obtain ⟨h1, h2, h3, h4⟩ := h
    unfold Node.ins
    split_ifs with e1 e2
    · rw [Node.ordered_node]
      exact ⟨fun x hx => e1 ▸ h1 x hx, fun x hx => e1 ▸ h2 x hx, h3, h4⟩
    · rw [Node.ordered_node]
      refine ⟨fun x hx => ?_, h2, ihl h3, h4⟩
      rcases Node.mem_ins key hx with rfl | hx
      · exact e2
      · exact h1 x hx
    · rw [Node.ordered_node]
      refine ⟨h1, fun x hx => ?_, h3, ihr h4⟩
      rcases Node.mem_ins key hx with rfl | hx
      · exact lt_of_le_of_ne (not_lt.1 e2) e1
      · exact h2 x hx

/-- When the key descent does not meet the key, insertion adds the item and nothing else. -/
theorem Node.ins_perm {t : Node α} {item : α} (h : t.hasKey key item = false) :
    (t.ins key item).inorder.Perm (item :: t.inorder) := by
  induction t with
  | null => simp [Node.ins]
  | node l d r ihl ihr =>
    unfold Node.hasKey at h
    unfold Node.ins
    split_ifs at h ⊢ with e1 e2
    · simp only [Node.inorder_node]
      exact ((ihl h).append_right _).trans (by simp)
    · simp only [Node.inorder_node]
      have := (ihr h).cons d
      exact (List.Perm.append_left l.inorder (this.trans (List.Perm.swap _ _ _))).trans
        List.perm_middle

/-- Right after insertion the key descent meets the key. -/
theorem Node.hasKey_ins (t : Node α) (item : α) : (t.ins key item).hasKey key item = true := by
  induction t with
  | null => simp [Node.ins, Node.hasKey]
  | node l d r ihl ihr =>
    unfold Node.ins
    split_ifs with e1 e2
    · simp [Node.hasKey]
    · simp [Node.hasKey, e1, e2, ihl]
    · simp [Node.hasKey, e1, e2, ihr]

/-- When the key descent meets the key, insertion only overwrites the item of the cell that
`search` finds. -/
theorem Node.ins_of_hasKey {t : Node α} {item : α} (h : t.hasKey key item = true) :
    ∃ p : Addr, (∀ tmp, searchLoop key item t tmp = some (tmp ++ p)) ∧
      t.ins key item = t.setData p item := by
  induction t with
  | null => simp [Node.hasKey] at h
  | node l d r ihl ihr =>
    unfold Node.hasKey at h
    split_ifs at h with e1 e2
    · exact ⟨[], fun tmp => by simp [searchLoop, e1], by simp [Node.ins, e1, Node.setData]⟩
    · obtain ⟨p, hp1, hp2⟩ := ihl h
      exact ⟨Dir.L :: p, fun tmp => by simp [searchLoop, e1, e2, hp1],
        by simp [Node.ins, e1, e2, Node.setData, hp2]⟩
    · obtain ⟨p, hp1, hp2⟩ := ihr h
      exact ⟨Dir.R :: p, fun tmp => by simp [searchLoop, e1, e2, hp1],
        by simp [Node.ins, e1, e2, Node.setData, hp2]⟩

/-- Inserting items with pairwise distinct keys, none of them stored yet, into an ordered
tree. -/
theorem Bstree.foldl_insert_spec (xs : List α) (s : Bstree α) (hO : s.root.Ordered key)
    (hnew : ∀ x ∈ xs, ∀ d ∈ s.root.inorder, key d ≠ key x)
    (hnd : xs.Pairwise (fun a b => key a ≠ key b)) :
    (xs.foldl (fun s x => s.insert key x) s).root.Ordered key ∧
      (xs.foldl (fun s x => s.insert key x) s).order = s.order + xs.length ∧
      (xs.foldl (fun s x => s.insert key x) s).root.inorder.Perm (s.root.inorder ++ xs) := by
  induction xs generalizing s with
  | nil => simp [hO]
  | cons x xs ih =>
    rw [List.pairwise_cons] at hnd
    have hx : s.root.hasKey key x = false := by
      rw [Bool.eq_false_iff, Ne, Node.hasKey_iff key hO]
      rintro ⟨d, hd, hk⟩
      exact hnew x (List.mem_cons_self _ _) d hd hk
    have hins : s.insert key x = ⟨s.root.ins key x, s.order + 1⟩ := by
      rw [Bstree.insert_eq, hx]; simp
    have hperm := Node.ins_perm key hx
    have := ih (s.insert key x) (by rw [hins]; exact Node.ins_ordered key hO x)
      (by
        intro y hy d hd
        rw [hins] at hd
        rcases List.mem_cons.1 (hperm.mem_iff.1 hd) with rfl | hd
        · exact hnd.1 y hy
        · exact hnew y (List.mem_cons_of_mem _ hy) d hd)
      hnd.2
    simp only [List.foldl_cons, List.length_cons]
    refine ⟨this.1, ?_, ?_⟩
    · rw [this.2.1, hins]; push_cast; ring
    · refine this.2.2.trans ?_
      rw [hins]
      exact (hperm.append_right xs).trans List.perm_middle.symm

end Insert

/-! ## The claims -/

/-- Claim C1, refuted on the code: removing a stored key should shorten the in-order sequence
by that key. The tree built from 5, 3, 8 is reachable and stores 5 in its root; `remove(5)`
returns `true` and lowers `size()` from 3 to 2, yet the in-order sequence is still
3, 5, 8: `remove(Node<T>*)` returns early when the cell has no parent. -/
theorem C1_remove_root_key_keeps_sequence :
    Reachable (id : Nat → Nat) (Bstree.ofList id [5, 3, 8]) ∧
      5 ∈ (Bstree.ofList (id : Nat → Nat) [5, 3, 8]).inorderVisited ∧
      ((Bstree.ofList (id : Nat → Nat) [5, 3, 8]).remove id 5).2 = true ∧
      (Bstree.ofList (id : Nat → Nat) [5, 3, 8]).size = 3 ∧
      ((Bstree.ofList (id : Nat → Nat) [5, 3, 8]).remove id 5).1.size = 2 ∧
      ((Bstree.ofList (id : Nat → Nat) [5, 3, 8]).remove id 5).1.inorderVisited = [3, 5, 8] := by
  refine ⟨?_, by decide, by decide, by decide, by decide, by decide⟩
  exact Reachable.insert _ 8 (Reachable.insert _ 3 (Reachable.insert _ 5 Reachable.init))

/-- Claim C2, refuted on the code: `size()` should be the number of cells reachable from the
root in every reachable state. After `insert(5); remove(5)` the root cell is still there
(one reachable cell) while `size()` is 0. -/
theorem C2_size_differs_from_node_count :
    Reachable (id : Nat → Nat) ((Bstree.mk0.insert id 5).remove id 5).1 ∧
      ((Bstree.mk0.insert (id : Nat → Nat) 5).remove id 5).1.size = 0 ∧
      ((Bstree.mk0.insert (id : Nat → Nat) 5).remove id 5).1.root.count = 1 := by
  refine ⟨?_, by decide, by decide⟩
  exact Reachable.remove _ 5 (Reachable.insert _ 5 Reachable.init)

/-- Claim C3: the ordering invariant holds for the empty tree and is preserved by
`insert(item)`, `remove(item)` and `trim()`. -/
theorem C3_ordering_preserved [LinearOrder κ] (key : α → κ) (s : Bstree α) (item : α)
    (h : s.root.Ordered key) :
    (Bstree.mk0 : Bstree α).root.Ordered key ∧
      (s.insert key item).root.Ordered key ∧
      (s.remove key item).1.root.Ordered key ∧
      (s.trim key).root.Ordered key := by
  refine ⟨trivial, ?_, Bstree.remove_ordered key s item h, Bstree.trim_ordered key s h⟩
  rw [Bstree.insert_eq]
  exact Node.ins_ordered key h item

theorem C3_ordering_preserved_witness :
    (Bstree.ofList (id : Nat → Nat) [5, 3, 8, 1, 4, 7, 9]).root.Ordered id ∧
      ((Bstree.mk0 : Bstree Nat).root.Ordered id ∧
        ((Bstree.ofList (id : Nat → Nat) [5, 3, 8, 1, 4, 7, 9]).insert id 6).root.Ordered id ∧
        ((Bstree.ofList (id : Nat → Nat) [5, 3, 8, 1, 4, 7, 9]).remove id 6).1.root.Ordered id ∧
        ((Bstree.ofList (id : Nat → Nat) [5, 3, 8, 1, 4, 7, 9]).trim id).root.Ordered id) :=
  ⟨by decide, C3_ordering_preserved id _ 6 (by decide)⟩

/-- Claim C4: inserting items with pairwise distinct keys one by one into the empty tree gives
`size()` equal to the number of items, and `inorderTraverse` visits exactly those items, in
strictly ascending key order. -/
theorem C4_insert_distinct_keys [LinearOrder κ] (key : α → κ) (xs : List α)
    (hnd : (xs.map key).Nodup) :
    (Bstree.ofList key xs).size = xs.length ∧
      (Bstree.ofList key xs).inorderVisited.Perm xs ∧
      ((Bstree.ofList key xs).inorderVisited.map key).Sorted (· < ·) := by
  have hpw : xs.Pairwise (fun a b => key a ≠ key b) := by
    simpa [List.Nodup, List.pairwise_map] using hnd
  obtain ⟨h1, h2, h3⟩ := Bstree.foldl_insert_spec key xs Bstree.mk0 trivial
    (by simp [Bstree.mk0]) hpw
  refine ⟨?_, ?_, ?_⟩
  · simpa [Bstree.ofList, Bstree.size, Bstree.mk0] using h2
  · rw [Bstree.inorderVisited_eq]
    simpa [Bstree.ofList, Bstree.mk0] using h3
  · rw [Bstree.inorderVisited_eq, List.Sorted, List.pairwise_map]
    exact (Node.ordered_iff_pairwise key _).1 h1

theorem C4_insert_distinct_keys_witness :
    ([5, 3, 8, 1, 4, 7, 9].map (id : Nat → Nat)).Nodup ∧
      ((Bstree.ofList (id : Nat → Nat) [5, 3, 8, 1, 4, 7, 9]).size =
          ([5, 3, 8, 1, 4, 7, 9] : List Nat).length ∧
        (Bstree.ofList (id : Nat → Nat) [5, 3, 8, 1, 4, 7, 9]).inorderVisited.Perm
          [5, 3, 8, 1, 4, 7, 9] ∧
        ((Bstree.ofList (id : Nat → Nat) [5, 3, 8, 1, 4, 7, 9]).inorderVisited.map id).Sorted
          (· < ·)) :=
  ⟨by decide, C4_insert_distinct_keys id _ (by decide)⟩

/-- Claim C5: on an ordered tree, inserting an item whose key is already stored leaves
`size()` and the shape of the tree unchanged; the only effect is that the item of the cell
with that key (the cell `search` finds) is overwritten by the inserted item. -/
theorem C5_insert_existing_key [LinearOrder κ] (key : α → κ) (s : Bstree α) (item : α)
    (hO : s.root.Ordered key) (hk : ∃ d ∈ s.inorderVisited, key d = key item) :
    (s.insert key item).size = s.size ∧
      (s.insert key item).root.shape = s.root.shape ∧
      ∃ p : Addr, search key s.root item = some p ∧
        (s.insert key item).root = s.root.setData p item := by
  rw [Bstree.inorderVisited_eq] at hk
  have hh : s.root.hasKey key item = true := (Node.hasKey_iff key hO item).2 hk
  obtain ⟨p, hp1, hp2⟩ := Node.ins_of_hasKey key hh
  have hroot : (s.insert key item).root = s.root.setData p item := by
    rw [Bstree.insert_eq]; exact hp2
  refine ⟨?_, ?_, p, ?_, hroot⟩
  · rw [Bstree.insert_eq]; simp [Bstree.size, hh]
  · rw [hroot, Node.shape_setData]
  · simpa [search] using hp1 []

theorem C5_insert_existing_key_witness :
    ((Bstree.ofList (Prod.fst : Nat × Nat → Nat) [(5, 0), (3, 0), (8, 0)]).root.Ordered
        Prod.fst ∧
      ∃ d ∈ (Bstree.ofList (Prod.fst : Nat × Nat → Nat) [(5, 0), (3, 0), (8, 0)]).inorderVisited,
        d.1 = (3, 7).1) ∧
      (((Bstree.ofList (Prod.fst : Nat × Nat → Nat) [(5, 0), (3, 0), (8, 0)]).insert
          Prod.fst (3, 7)).size =
          (Bstree.ofList (Prod.fst : Nat × Nat → Nat) [(5, 0), (3, 0), (8, 0)]).size ∧
        ((Bstree.ofList (Prod.fst : Nat × Nat → Nat) [(5, 0), (3, 0), (8, 0)]).insert
          Prod.fst (3, 7)).root.shape =
          (Bstree.ofList (Prod.fst : Nat × Nat → Nat) [(5, 0), (3, 0), (8, 0)]).root.shape ∧
        ∃ p : Addr,
          search Prod.fst
              (Bstree.ofList (Prod.fst : Nat × Nat → Nat) [(5, 0), (3, 0), (8, 0)]).root
              (3, 7) = some p ∧
            ((Bstree.ofList (Prod.fst : Nat × Nat → Nat) [(5, 0), (3, 0), (8, 0)]).insert
              Prod.fst (3, 7)).root =
              (Bstree.ofList (Prod.fst : Nat × Nat → Nat)
                [(5, 0), (3, 0), (8, 0)]).root.setData p (3, 7)) :=
  ⟨⟨by decide, ⟨(3, 0), by decide, rfl⟩⟩,
    C5_insert_existing_key Prod.fst _ (3, 7) (by decide) ⟨(3, 0), by decide, rfl⟩⟩

/-- Claim C6: when no stored item has the key of `item`, `remove(item)` returns `false` and
leaves the whole state unchanged, hence `size()`, `height()` and the in-order sequence. -/
theorem C6_remove_absent_key [LinearOrder κ] (key : α → κ) (s : Bstree α) (item : α)
    (h : ∀ d ∈ s.inorderVisited, key d ≠ key item) :
    (s.remove key item).2 = false ∧ (s.remove key item).1 = s ∧
      (s.remove key item).1.size = s.size ∧
      (s.remove key item).1.height = s.height ∧
      (s.remove key item).1.inorderVisited = s.inorderVisited := by
  rw [Bstree.inorderVisited_eq] at h
  rw [Bstree.remove_absent key s item h]
  exact ⟨rfl, rfl, rfl, rfl, rfl⟩

theorem C6_remove_absent_key_witness :
    (∀ d ∈ (Bstree.ofList (id : Nat → Nat) [5, 3, 8]).inorderVisited, id d ≠ id 4) ∧
      (((Bstree.ofList (id : Nat → Nat) [5, 3, 8]).remove id 4).2 = false ∧
        ((Bstree.ofList (id : Nat → Nat) [5, 3, 8]).remove id 4).1 =
          Bstree.ofList (id : Nat → Nat) [5, 3, 8] ∧
        ((Bstree.ofList (id : Nat → Nat) [5, 3, 8]).remove id 4).1.size =
          (Bstree.ofList (id : Nat → Nat) [5, 3, 8]).size ∧
        ((Bstree.ofList (id : Nat → Nat) [5, 3, 8]).remove id 4).1.height =
          (Bstree.ofList (id : Nat → Nat) [5, 3, 8]).height ∧
        ((Bstree.ofList (id : Nat → Nat) [5, 3, 8]).remove id 4).1.inorderVisited =
          (Bstree.ofList (id : Nat → Nat) [5, 3, 8]).inorderVisited) :=
  ⟨by decide, C6_remove_absent_key id _ 4 (by decide)⟩

/-- Claim C7, refuted on the code: removing the key of a root with at most one child should
make that child (or nothing) the new root. After `insert(5)`, `remove(5)` returns `true`
but the root is still the cell holding 5; after `insert(5); insert(3)`, `remove(5)` leaves
the root cell 5 with its child 3 in place. -/
theorem C7_remove_root_leaves_root_in_place :
    (Bstree.ofList (id : Nat → Nat) [5]).remove id 5 = (⟨.node .null 5 .null, 0⟩, true) ∧
      (Bstree.ofList (id : Nat → Nat) [5, 3]).remove id 5 =
        (⟨.node (.node .null 3 .null) 5 .null, 1⟩, true) := by
  constructor <;> decide

/-- Claim C8, refuted on the code: a `true` result of `remove(item)` should mean the item is
gone. On the tree built from 5, 3, 8, `remove(5)` returns `true` and `inTree(5)` is still
`true` afterwards. -/
theorem C8_remove_true_but_still_in_tree :
    ((Bstree.ofList (id : Nat → Nat) [5, 3, 8]).remove id 5).2 = true ∧
      ((Bstree.ofList (id : Nat → Nat) [5, 3, 8]).remove id 5).1.inTree id 5 = true := by
  constructor <;> decide

/-- Claim C9: on an ordered tree `inTree(item)` is `true` exactly when some stored item has
the key of `item`, that is when such an item occurs in the in-order sequence; and
`inTree(item)` is `true` right after `insert(item)`. -/
theorem C9_inTree_iff_stored [LinearOrder κ] (key : α → κ) (s : Bstree α) (item : α)
    (hO : s.root.Ordered key) :
    (s.inTree key item = true ↔ ∃ d ∈ s.inorderVisited, key d = key item) ∧
      (s.insert key item).inTree key item = true := by
  constructor
  · rw [Bstree.inTree_eq, Bstree.inorderVisited_eq]
    exact Node.hasKey_iff key hO item
  · rw [Bstree.inTree_eq, Bstree.insert_eq]
    exact Node.hasKey_ins key _ item

theorem C9_inTree_iff_stored_witness :
    (Bstree.ofList (id : Nat → Nat) [5, 3, 8]).root.Ordered id ∧
      (((Bstree.ofList (id : Nat → Nat) [5, 3, 8]).inTree id 8 = true ↔
          ∃ d ∈ (Bstree.ofList (id : Nat → Nat) [5, 3, 8]).inorderVisited, id d = id 8) ∧
        ((Bstree.ofList (id : Nat → Nat) [5, 3, 8]).insert id 8).inTree id 8 = true) :=
  ⟨by decide, C9_inTree_iff_stored id _ 8 (by decide)⟩

/-- Claim C10, refuted on the code: one `trim()` should remove every cell that was a leaf.
On the one-cell tree built from 5 the root is a leaf, and after `trim()` it is still there
(while `order` has dropped to 0). The spec's own example does behave as described: on the
tree built from 5, 3, 8, 1, 4, 7, 9 one `trim()` leaves 3, 5, 8 and a second one leaves 5. -/
theorem C10_trim_keeps_leaf_root :
    (Bstree.ofList (id : Nat → Nat) [5]).root.isLeaf = true ∧
      (Bstree.ofList (id : Nat → Nat) [5]).trim id = ⟨.node .null 5 .null, 0⟩ ∧
      ((Bstree.ofList (id : Nat → Nat) [5, 3, 8, 1, 4, 7, 9]).trim id).inorderVisited =
        [3, 5, 8] ∧
      (((Bstree.ofList (id : Nat → Nat) [5, 3, 8, 1, 4, 7, 9]).trim id).trim id).inorderVisited =
        [5] := by
  refine ⟨by decide, by decide, by decide, by decide⟩

/-! ## Traversals -/

theorem preorderTraverseNode_fold (apply : α → σ → σ) (t : Node α) (st : σ) :
    preorderTraverseNode apply t st = t.preorder.foldl (fun st x => apply x st) st := by
  induction t generalizing st with
  | null => rfl
  | node l d r ihl ihr => simp [preorderTraverseNode, Node.preorder, ihl, ihr]

theorem inorderTraverseNode_fold (apply : α → σ → σ) (t : Node α) (st : σ) :
    inorderTraverseNode apply t st = t.inorder.foldl (fun st x => apply x st) st := by
  induction t generalizing st with
  | null => rfl
  | node l d r ihl ihr => simp [inorderTraverseNode, ihl, ihr]

theorem postorderTraverseNode_fold (apply : α → σ → σ) (t : Node α) (st : σ) :
    postorderTraverseNode apply t st = t.postorder.foldl (fun st x => apply x st) st := by
  induction t generalizing st with
  | null => rfl
  | node l d r ihl ihr => simp [postorderTraverseNode, Node.postorder, ihl, ihr]

theorem foldl_record (xs acc : List α) :
    xs.foldl (fun acc x => acc ++ [x]) acc = acc ++ xs := by
  induction xs generalizing acc with
  | nil => simp
  | cons x xs ih => simp [ih]

theorem Bstree.preorderVisited_eq (s : Bstree α) : s.preorderVisited = s.root.preorder := by
  simp [Bstree.preorderVisited, Bstree.preorderTraverse, preorderTraverseNode_fold,
    foldl_record]

theorem Bstree.postorderVisited_eq (s : Bstree α) : s.postorderVisited = s.root.postorder := by
  simp [Bstree.postorderVisited, Bstree.postorderTraverse, postorderTraverseNode_fold,
    foldl_record]

theorem Node.preorder_perm_inorder (t : Node α) : t.preorder.Perm t.inorder := by
  induction t with
  | null => simp [Node.preorder]
  | node l d r ihl ihr =>
    simp only [Node.preorder, Node.inorder_node]
    exact ((ihl.append ihr).cons d).trans List.perm_middle.symm

theorem Node.postorder_perm_inorder (t : Node α) : t.postorder.Perm t.inorder := by
  induction t with
  | null => simp [Node.postorder]
  | node l d r ihl ihr =>
    simp only [Node.postorder, Node.inorder_node, List.append_assoc]
    exact ihl.append ((List.perm_append_singleton d r.postorder).trans (ihr.cons d))

theorem Node.length_inorder (t : Node α) : t.inorder.length = t.count := by
  induction t with
  | null => rfl
  | node l d r ihl ihr => simp [Node.count, ihl, ihr]; omega

/-- In an ordered tree no item occurs twice in the in-order sequence. -/
theorem Node.not_mem_of_ordered [LinearOrder κ] (key : α → κ) {l r : Node α} {d : α}
    (h : (Node.node l d r).Ordered key) : d ∉ l.inorder ∧ d ∉ r.inorder := by
  rw [Node.ordered_node] at h
  exact ⟨fun hd => lt_irrefl _ (h.1 d hd), fun hd => lt_irrefl _ (h.2.1 d hd)⟩

/-- Two ordered trees with the same pre-order and the same in-order sequence are equal. -/
theorem Node.eq_of_preorder_inorder [LinearOrder κ] (key : α → κ) (t u : Node α)
    (ht : t.Ordered key) (hpre : t.preorder = u.preorder) (hin : t.inorder = u.inorder) :
    t = u := by
  induction t generalizing u with
  | null =>
    cases u with
    | null => rfl
    | node l d r => simp [Node.preorder] at hpre
  | node l d r ihl ihr =>
    cases u with
    | null => simp [Node.preorder] at hpre
    | node l2 d2 r2 =>
      simp only [Node.preorder, List.cons.injEq] at hpre
      obtain ⟨hd, hrest⟩ := hpre
      subst hd
      obtain ⟨hnl, hnr⟩ := Node.not_mem_of_ordered key ht
      simp only [Node.inorder_node] at hin
      obtain ⟨hl, -, hr⟩ := (List.append_cons_inj_of_not_mem hnl hnr).1 hin
      have hlen : l.preorder.length = l2.preorder.length := by
        rw [(Node.preorder_perm_inorder l).length_eq, (Node.preorder_perm_inorder l2).length_eq,
          hl]
      obtain ⟨hpl, hpr⟩ := List.append_inj hrest hlen
      rw [Node.ordered_node] at ht
      rw [ihl l2 ht.2.2.1 hpl hl, ihr r2 ht.2.2.2 hpr hr]

/-! ## Heights, leaf and half-node counts, balance -/

theorem heightNode_ge (t : Node α) : -1 ≤ heightNode t := by
  induction t with
  | null => simp [heightNode]
  | node l d r ihl ihr =>
    simp only [heightNode]
    have := le_max_left (heightNode l) (heightNode r)
    omega

theorem countLeavesNode_eq_leaves (t : Node α) : countLeavesNode t = (t.leaves : Int) := by
  induction t with
  | null => rfl
  | node l d r ihl ihr =>
    unfold countLeavesNode Node.leaves
    cases l with
    | null =>
      cases r with
      | null => simp
      | node rl rd rr => simp [ihr, Node.leaves]
    | node ll ld lr =>
      cases r with
      | null => simp [ihl, Node.leaves]
      | node rl rd rr => simp [ihl, ihr]

theorem countLeavesNode_eq_countP (t : Node α) :
    countLeavesNode t = (t.cells.countP Node.isLeaf : Int) := by
  induction t with
  | null => rfl
  | node l d r ihl ihr =>
    unfold countLeavesNode
    cases l with
    | null =>
      cases r with
      | null => simp [Node.cells, Node.isLeaf]
      | node rl rd rr => simp [ihr, Node.cells, Node.isLeaf, List.countP_cons]
    | node ll ld lr =>
      cases r with
      | null => simp [ihl, Node.cells, Node.isLeaf, List.countP_cons]
      | node rl rd rr =>
        rw [Node.cells, List.countP_cons, List.countP_append]
        simp [ihl, ihr, Node.isLeaf]

theorem countHalvesNode_eq_countP (t : Node α) :
    countHalvesNode t = (t.cells.countP Node.isHalf : Int) := by
  induction t with
  | null => rfl
  | node l d r ihl ihr =>
    unfold countHalvesNode
    cases l with
    | null =>
      cases r with
      | null => simp [Node.cells, Node.isHalf]
      | node rl rd rr =>
        rw [Node.cells, List.countP_cons, List.countP_append]
        simp [ihr, Node.cells, Node.isHalf]
        ring
    | node ll ld lr =>
      cases r with
      | null =>
        rw [Node.cells, List.countP_cons, List.countP_append]
        simp [ihl, Node.cells, Node.isHalf]
        ring
      | node rl rd rr =>
        rw [Node.cells, List.countP_cons, List.countP_append]
        simp [ihl, ihr, Node.isHalf]

theorem Node.length_cells (t : Node α) : t.cells.length = t.count := by
  induction t with
  | null => rfl
  | node l d r ihl ihr => simp [Node.cells, Node.count, ihl, ihr]; omega

/-- The sentinel pass: `balHeight` is the height on balanced subtrees and −2 on the others. -/
theorem balHeight_spec (t : Node α) :
    (t.Balanced → balHeight t = heightNode t) ∧ (¬ t.Balanced → balHeight t = -2) := by
  induction t with
  | null => simp [Node.Balanced, balHeight, heightNode]
  | node l d r ihl ihr =>
    have hl := heightNode_ge l
    have hr := heightNode_ge r
    by_cases bl : l.Balanced
    · by_cases br : r.Balanced
      · have el := ihl.1 bl
        have er := ihr.1 br
        constructor
        · intro hb
          have hd : ¬ (abs (heightNode l - heightNode r) > 1) := not_lt.2 hb.1
          have h1 : heightNode l ≠ -2 := by omega
          have h2 : heightNode r ≠ -2 := by omega
          simp [balHeight, heightNode, el, er, hd, h1, h2]
        · intro hb
          have hd : abs (heightNode l - heightNode r) > 1 := by
            by_contra hc
            exact hb ⟨not_lt.1 hc, bl, br⟩
          simp [balHeight, el, er, hd]
      · have er := ihr.2 br
        exact ⟨fun hb => absurd hb.2.2 br, fun _ => by simp [balHeight, er]⟩
    · have el := ihl.2 bl
      exact ⟨fun hb => absurd hb.2.1 bl, fun _ => by simp [balHeight, el]⟩

theorem balHeight_eq_neg_two_iff (t : Node α) : balHeight t = -2 ↔ ¬ t.Balanced := by
  constructor
  · intro h hb
    have := (balHeight_spec t).1 hb
    have := heightNode_ge t
    omega
  · exact (balHeight_spec t).2

theorem Bstree.isBalanced_iff (s : Bstree α) : s.isBalanced = true ↔ s.root.Balanced := by
  unfold Bstree.isBalanced
  split_ifs with h
  · simpa using (balHeight_eq_neg_two_iff _).1 h
  · simpa using not_not.1 (fun hb => h ((balHeight_eq_neg_two_iff _).2 hb))

/-! ## Chains, least and greatest items -/

theorem Node.ins_chain [LinearOrder κ] (key : α → κ) (ys : List α) (x : α)
    (h : ∀ y ∈ ys, key y < key x) :
    (Node.chain ys).ins key x = Node.chain (ys ++ [x]) := by
  induction ys with
  | nil => rfl
  | cons y ys ih =>
    have hy : key y < key x := h y (List.mem_cons_self _ _)
    have h1 : key y ≠ key x := ne_of_lt hy
    have h2 : ¬ key y > key x := not_lt_of_gt hy
    show (Node.node .null y (Node.chain ys)).ins key x =
      Node.node .null y (Node.chain (ys ++ [x]))
    simp only [Node.ins, h1, h2, if_false]
    rw [ih (fun z hz => h z (List.mem_cons_of_mem _ hz))]

/-- Inserting items in strictly increasing key order below a chain extends the chain. -/
theorem Bstree.foldl_insert_chain [LinearOrder κ] (key : α → κ) (xs ys : List α) (n : Int)
    (h : (ys ++ xs).Pairwise (fun a b => key a < key b)) :
    (xs.foldl (fun s x => Bstree.insert key s x) (⟨Node.chain ys, n⟩ : Bstree α)).root =
      Node.chain (ys ++ xs) := by
  induction xs generalizing ys n with
  | nil => simp
  | cons x xs ih =>
    have hx : ∀ y ∈ ys, key y < key x := by
      intro y hy
      exact (List.pairwise_append.1 h).2.2 y hy x (List.mem_cons_self _ _)
    simp only [List.foldl_cons]
    rw [Bstree.insert_eq]
    simp only [Node.ins_chain key ys x hx]
    rw [ih (ys ++ [x]) _ (by simpa using h)]
    simp

theorem heightNode_chain (xs : List α) : heightNode (Node.chain xs) = (xs.length : Int) - 1 := by
  induction xs with
  | nil => rfl
  | cons x xs ih =>
    simp only [Node.chain, heightNode, ih, List.length_cons]
    have : (-1 : Int) ≤ (xs.length : Int) - 1 := by omega
    rw [max_eq_right this]
    push_cast
    ring

theorem Node.chain_not_balanced (xs : List α) (h : 3 ≤ xs.length) :
    ¬ (Node.chain xs).Balanced := by
  cases xs with
  | nil => simp at h
  | cons x xs =>
    intro hb
    have h1 := hb.1
    rw [heightNode_chain] at h1
    simp only [heightNode, List.length_cons] at h h1
    have h2 : (-1 : Int) - ((xs.length : Int) - 1) ≤ 0 := by omega
    rw [abs_of_nonpos h2] at h1
    omega

/-- The leftmost descent of `min()` ends on the first item of the in-order sequence. -/
theorem minLoop_spec (l r : Node α) (d : α) :
    ∃ post : List α, l.inorder ++ d :: r.inorder = minLoop l d :: post := by
  induction l generalizing r d with
  | null => exact ⟨r.inorder, by simp [minLoop]⟩
  | node ll e lr ihl _ =>
    obtain ⟨post, hp⟩ := ihl lr e
    have := congrArg (fun xs => xs ++ d :: r.inorder) hp
    exact ⟨post ++ d :: r.inorder, by simpa [minLoop] using this⟩

/-- The rightmost descent of `max()` ends on the last item of the in-order sequence. -/
theorem maxLoop_spec (l r : Node α) (d : α) :
    ∃ pre : List α, l.inorder ++ d :: r.inorder = pre ++ [maxLoop r d] := by
  induction r generalizing l d with
  | null => exact ⟨l.inorder, by simp [maxLoop]⟩
  | node rl e rr _ ihr =>
    obtain ⟨pre, hp⟩ := ihr rl e
    exact ⟨l.inorder ++ d :: pre, by simp [maxLoop, hp]⟩

theorem minLoop_least [LinearOrder κ] (key : α → κ) {l r : Node α} {d : α}
    (h : (Node.node l d r).Ordered key) :
    minLoop l d ∈ (Node.node l d r).inorder ∧
      ∀ x ∈ (Node.node l d r).inorder, key (minLoop l d) ≤ key x := by
  obtain ⟨post, hp⟩ := minLoop_spec l r d
  rw [Node.ordered_iff_pairwise, Node.inorder_node, hp, List.pairwise_cons] at h
  rw [Node.inorder_node, hp]
  refine ⟨List.mem_cons_self _ _, fun x hx => ?_⟩
  rcases List.mem_cons.1 hx with rfl | hx
  · exact le_refl _
  · exact le_of_lt (h.1 x hx)

theorem maxLoop_greatest [LinearOrder κ] (key : α → κ) {l r : Node α} {d : α}
    (h : (Node.node l d r).Ordered key) :
    maxLoop r d ∈ (Node.node l d r).inorder ∧
      ∀ x ∈ (Node.node l d r).inorder, key x ≤ key (maxLoop r d) := by
  obtain ⟨pre, hp⟩ := maxLoop_spec l r d
  rw [Node.ordered_iff_pairwise, Node.inorder_node, hp, List.pairwise_append] at h
  rw [Node.inorder_node, hp]
  refine ⟨by simp, fun x hx => ?_⟩
  rcases List.mem_append.1 hx with hx | hx
  · exact le_of_lt (h.2.2 x hx _ (List.mem_singleton_self _))
  · rw [List.mem_singleton.1 hx]

/-! ## The claims on the structural queries -/

/-- Claim C11: `isBalanced()` is `true` exactly when every cell has subtrees whose heights
differ by at most 1; the sentinel pass `balHeight` returns −2 exactly on the subtrees that
are not balanced, and the height of the subtree on the balanced ones. -/
theorem C11_isBalanced_iff_balanced (s : Bstree α) (t : Node α) :
    (s.isBalanced = true ↔ s.root.Balanced) ∧
      (balHeight t = -2 ↔ ¬ t.Balanced) ∧
      ((t.Balanced ∧ balHeight t = heightNode t) ∨ (¬ t.Balanced ∧ balHeight t = -2)) := by
  refine ⟨Bstree.isBalanced_iff s, balHeight_eq_neg_two_iff t, ?_⟩
  by_cases hb : t.Balanced
  · exact Or.inl ⟨hb, (balHeight_spec t).1 hb⟩
  · exact Or.inr ⟨hb, (balHeight_spec t).2 hb⟩

/-- Claim C12: `isBalanced()` is `true` on the empty tree; inserting at least 3 items in
strictly increasing key order into the empty tree builds the right-leaning chain of those
items, of height length − 1, and `isBalanced()` is `false` on it. -/
theorem C12_increasing_inserts_unbalanced [LinearOrder κ] (key : α → κ) (xs : List α)
    (hs : (xs.map key).Sorted (· < ·)) (hl : 3 ≤ xs.length) :
    (Bstree.mk0 : Bstree α).isBalanced = true ∧
      (Bstree.ofList key xs).isBalanced = false ∧
      (Bstree.ofList key xs).root = Node.chain xs ∧
      (Bstree.ofList key xs).height = (xs.length : Int) - 1 := by
  have hpw : ([] ++ xs).Pairwise (fun a b => key a < key b) := by
    simpa [List.Sorted, List.pairwise_map] using hs
  have hroot : (Bstree.ofList key xs).root = Node.chain xs := by
    simpa [Bstree.ofList, Bstree.mk0, Node.chain] using
      Bstree.foldl_insert_chain key xs [] 0 hpw
  refine ⟨by simp [Bstree.isBalanced, Bstree.mk0, balHeight], ?_, hroot, ?_⟩
  · rw [Bool.eq_false_iff, Ne, Bstree.isBalanced_iff, hroot]
    exact Node.chain_not_balanced xs hl
  · have hnn : (Node.chain xs).isNull = false := by
      cases xs with
      | nil => simp at hl
      | cons x xs => rfl
    simp [Bstree.height, hroot, hnn, heightNode_chain]

theorem C12_increasing_inserts_unbalanced_witness :
    (([1, 2, 3] : List Nat).map id).Sorted (· < ·) ∧ 3 ≤ ([1, 2, 3] : List Nat).length ∧
      ((Bstree.mk0 : Bstree Nat).isBalanced = true ∧
        (Bstree.ofList (id : Nat → Nat) [1, 2, 3]).isBalanced = false ∧
        (Bstree.ofList (id : Nat → Nat) [1, 2, 3]).root = Node.chain [1, 2, 3] ∧
        (Bstree.ofList (id : Nat → Nat) [1, 2, 3]).height =
          (([1, 2, 3] : List Nat).length : Int) - 1) :=
  ⟨by decide, by decide, C12_increasing_inserts_unbalanced id [1, 2, 3] (by decide) (by decide)⟩

/-- Claim C13: `min()` and `max()` throw the `BstreeException` "Tree is empty" exactly when
the tree has no cell; on a non-empty ordered tree `min()` returns a stored item of least key
and `max()` a stored item of greatest key (1 and 9 after inserting 5, 3, 8, 1, 4, 7, 9). -/
theorem C13_min_max [LinearOrder κ] (key : α → κ) (s : Bstree α) (hO : s.root.Ordered key) :
    (s.min = .error ⟨"Tree is empty"⟩ ↔ s.empty = true) ∧
      (s.max = .error ⟨"Tree is empty"⟩ ↔ s.empty = true) ∧
      (s.empty = true ∨ ∃ m M : α, s.min = .ok m ∧ s.max = .ok M ∧
        m ∈ s.inorderVisited ∧ M ∈ s.inorderVisited ∧
        ∀ x ∈ s.inorderVisited, key m ≤ key x ∧ key x ≤ key M) ∧
      (Bstree.ofList (id : Nat → Nat) [5, 3, 8, 1, 4, 7, 9]).min = .ok 1 ∧
      (Bstree.ofList (id : Nat → Nat) [5, 3, 8, 1, 4, 7, 9]).max = .ok 9 := by
  refine ⟨?_, ?_, ?_, rfl, rfl⟩
  · cases hr : s.root <;> simp [Bstree.min, Bstree.empty, hr]
  · cases hr : s.root <;> simp [Bstree.max, Bstree.empty, hr]
  · cases hr : s.root with
    | null => exact Or.inl (by simp [Bstree.empty, hr])
    | node l d r =>
      rw [hr] at hO
      obtain ⟨hm1, hm2⟩ := minLoop_least key hO
      obtain ⟨hM1, hM2⟩ := maxLoop_greatest key hO
      refine Or.inr ⟨minLoop l d, maxLoop r d, by simp [Bstree.min, hr],
        by simp [Bstree.max, hr], ?_, ?_, ?_⟩
      · rw [Bstree.inorderVisited_eq, hr]; exact hm1
      · rw [Bstree.inorderVisited_eq, hr]; exact hM1
      · rw [Bstree.inorderVisited_eq, hr]
        exact fun x hx => ⟨hm2 x hx, hM2 x hx⟩

theorem C13_min_max_witness :
    (Bstree.ofList (id : Nat → Nat) [5, 3, 8]).root.Ordered id ∧
      (((Bstree.ofList (id : Nat → Nat) [5, 3, 8]).min = .error ⟨"Tree is empty"⟩ ↔
          (Bstree.ofList (id : Nat → Nat) [5, 3, 8]).empty = true) ∧
        ((Bstree.ofList (id : Nat → Nat) [5, 3, 8]).max = .error ⟨"Tree is empty"⟩ ↔
          (Bstree.ofList (id : Nat → Nat) [5, 3, 8]).empty = true) ∧
        ((Bstree.ofList (id : Nat → Nat) [5, 3, 8]).empty = true ∨ ∃ m M : Nat,
          (Bstree.ofList (id : Nat → Nat) [5, 3, 8]).min = .ok m ∧
          (Bstree.ofList (id : Nat → Nat) [5, 3, 8]).max = .ok M ∧
          m ∈ (Bstree.ofList (id : Nat → Nat) [5, 3, 8]).inorderVisited ∧
          M ∈ (Bstree.ofList (id : Nat → Nat) [5, 3, 8]).inorderVisited ∧
          ∀ x ∈ (Bstree.ofList (id : Nat → Nat) [5, 3, 8]).inorderVisited,
            id m ≤ id x ∧ id x ≤ id M) ∧
        (Bstree.ofList (id : Nat → Nat) [5, 3, 8, 1, 4, 7, 9]).min = .ok 1 ∧
        (Bstree.ofList (id : Nat → Nat) [5, 3, 8, 1, 4, 7, 9]).max = .ok 9) :=
  ⟨by decide, C13_min_max id _ (by decide)⟩

/-- On an ordered tree `retrieve` returns the stored item with the key, when there is one. -/
theorem Bstree.retrieve_of_mem [LinearOrder κ] (key : α → κ) (s : Bstree α) (k d : α)
    (hO : s.root.Ordered key) (hd : d ∈ s.root.inorder) (hk : key d = key k) :
    s.retrieve key k = (.ok d, s) := by
  obtain ⟨p, l, r, hp⟩ := Node.exists_sub_of_mem hd
  have hs := search_of_sub key hO p hp hk
  have hnn : s.root.isNull = false := by
    cases hr : s.root with
    | null => rw [hr] at hd; simp at hd
    | node a b c => rfl
  simp [Bstree.retrieve, hnn, hs, hp]

/-- When no stored item has the key, `retrieve` throws, with a message that tells the empty
tree from the missing key. -/
theorem Bstree.retrieve_of_absent [LinearOrder κ] (key : α → κ) (s : Bstree α) (k : α)
    (h : ∀ d ∈ s.root.inorder, key d ≠ key k) :
    s.retrieve key k =
      (.error (if s.root.isNull then ⟨"Exception:tree empty on retrieve()."⟩
        else ⟨"Exception: non-existent key on retrieve()."⟩), s) := by
  unfold Bstree.retrieve
  split_ifs with h1
  · rfl
  · rw [search_none_of_absent key h]

/-- Claim C14: on an ordered tree `retrieve(key)` throws "tree empty" exactly when the tree
is empty, throws the different message "non-existent key" exactly when the tree is not empty
and stores no item with that key, and otherwise returns the stored item with that key; the
state after the call is the state before it. -/
theorem C14_retrieve [LinearOrder κ] (key : α → κ) (s : Bstree α) (k : α)
    (hO : s.root.Ordered key) :
    ((s.retrieve key k).1 = .error ⟨"Exception:tree empty on retrieve()."⟩ ↔
        s.empty = true) ∧
      ((s.retrieve key k).1 = .error ⟨"Exception: non-existent key on retrieve()."⟩ ↔
        s.empty = false ∧ ∀ d ∈ s.inorderVisited, key d ≠ key k) ∧
      (∀ d : α, (s.retrieve key k).1 = .ok d ↔ d ∈ s.inorderVisited ∧ key d = key k) ∧
      (s.retrieve key k).2 = s := by
  rw [Bstree.inorderVisited_eq]
  by_cases h : ∀ d ∈ s.root.inorder, key d ≠ key k
  · rw [Bstree.retrieve_of_absent key s k h]
    cases hr : s.root with
    | null => simp [Bstree.empty, hr]
    | node a b c =>
      rw [hr] at h
      refine ⟨by simp [Bstree.empty, hr], ?_, ?_, rfl⟩
      · simpa [Bstree.empty, hr] using h
      · intro d
        simp only [Node.isNull_node, Bool.false_eq_true, if_false, reduceCtorEq, false_iff,
          not_and, not_not]
        exact fun hd => h d hd
  · push_neg at h
    obtain ⟨d0, hd0, hk0⟩ := h
    rw [Bstree.retrieve_of_mem key s k d0 hO hd0 hk0]
    have hne : s.empty = false := by
      cases hr : s.root with
      | null => rw [hr] at hd0; simp at hd0
      | node a b c => simp [Bstree.empty, hr]
    refine ⟨by simp [hne], ?_, ?_, rfl⟩
    · simp only [reduceCtorEq, false_iff, not_and, not_forall]
      exact fun _ => ⟨d0, hd0, by simpa using hk0⟩
    · intro d
      simp only [Except.ok.injEq]
      constructor
      · rintro rfl
        exact ⟨hd0, hk0⟩
      · rintro ⟨hd, hk⟩
        have h1 := Bstree.retrieve_of_mem key s k d hO hd hk
        rw [Bstree.retrieve_of_mem key s k d0 hO hd0 hk0] at h1
        simpa using congrArg Prod.fst h1

theorem C14_retrieve_witness :
    (Bstree.ofList (Prod.fst : Nat × Nat → Nat) [(5, 50), (3, 30), (8, 80)]).root.Ordered
        Prod.fst ∧
      ((((Bstree.ofList (Prod.fst : Nat × Nat → Nat) [(5, 50), (3, 30), (8, 80)]).retrieve
            Prod.fst (3, 0)).1 = .error ⟨"Exception:tree empty on retrieve()."⟩ ↔
          (Bstree.ofList (Prod.fst : Nat × Nat → Nat) [(5, 50), (3, 30), (8, 80)]).empty =
            true) ∧
        (((Bstree.ofList (Prod.fst : Nat × Nat → Nat) [(5, 50), (3, 30), (8, 80)]).retrieve
            Prod.fst (3, 0)).1 = .error ⟨"Exception: non-existent key on retrieve()."⟩ ↔
          (Bstree.ofList (Prod.fst : Nat × Nat → Nat) [(5, 50), (3, 30), (8, 80)]).empty =
            false ∧
          ∀ d ∈ (Bstree.ofList (Prod.fst : Nat × Nat → Nat)
              [(5, 50), (3, 30), (8, 80)]).inorderVisited, d.1 ≠ (3, 0).1) ∧
        (∀ d : Nat × Nat,
          ((Bstree.ofList (Prod.fst : Nat × Nat → Nat) [(5, 50), (3, 30), (8, 80)]).retrieve
            Prod.fst (3, 0)).1 = .ok d ↔
          d ∈ (Bstree.ofList (Prod.fst : Nat × Nat → Nat)
              [(5, 50), (3, 30), (8, 80)]).inorderVisited ∧ d.1 = (3, 0).1) ∧
        ((Bstree.ofList (Prod.fst : Nat × Nat → Nat) [(5, 50), (3, 30), (8, 80)]).retrieve
            Prod.fst (3, 0)).2 =
          Bstree.ofList (Prod.fst : Nat × Nat → Nat) [(5, 50), (3, 30), (8, 80)]) :=
  ⟨by decide, C14_retrieve Prod.fst _ (3, 0) (by decide)⟩

/-- Claim C15: `height()` is −1 on the empty tree and 0 after one `insert` into it; on a
non-empty tree it is 1 + the larger of the heights of the two subtrees of the root, an absent
subtree counting −1; it is 2 after inserting 5, 3, 8, 1, 4, 7, 9. -/
theorem C15_height [LinearOrder κ] (key : α → κ) (x d : α) (l r : Node α) (n : Int) :
    (Bstree.mk0 : Bstree α).height = -1 ∧
      ((Bstree.mk0 : Bstree α).insert key x).height = 0 ∧
      (Bstree.mk (.node l d r) n).height = 1 + max (heightNode l) (heightNode r) ∧
      heightNode (.null : Node α) = -1 ∧
      (Bstree.ofList (id : Nat → Nat) [5, 3, 8, 1, 4, 7, 9]).height = 2 := by
  refine ⟨rfl, ?_, ?_, rfl, by decide⟩
  · simp [Bstree.insert, Bstree.mk0, Bstree.height, heightNode]
  · simp [Bstree.height, heightNode, add_comm]

/-- Claim C16: the three traversals apply the callback to the items in the classical orders
(cell, left, right; left, cell, right; left, right, cell), once per cell: the three visited
sequences are permutations of one another and as long as the tree has cells. After inserting
5, 3, 8, 1, 4, 7, 9 they are 5,3,1,4,8,7,9; 1,3,4,5,7,8,9 and 1,4,3,7,9,8,5. -/
theorem C16_traversal_orders (s : Bstree α) (apply : α → σ → σ) (st : σ) :
    s.preorderTraverse apply st = s.root.preorder.foldl (fun st x => apply x st) st ∧
      s.inorderTraverse apply st = s.root.inorder.foldl (fun st x => apply x st) st ∧
      s.postorderTraverse apply st = s.root.postorder.foldl (fun st x => apply x st) st ∧
      s.preorderVisited = s.root.preorder ∧
      s.inorderVisited = s.root.inorder ∧
      s.postorderVisited = s.root.postorder ∧
      s.preorderVisited.Perm s.inorderVisited ∧
      s.postorderVisited.Perm s.inorderVisited ∧
      s.preorderVisited.length = s.root.count ∧
      s.inorderVisited.length = s.root.count ∧
      s.postorderVisited.length = s.root.count ∧
      (Bstree.ofList (id : Nat → Nat) [5, 3, 8, 1, 4, 7, 9]).preorderVisited =
        [5, 3, 1, 4, 8, 7, 9] ∧
      (Bstree.ofList (id : Nat → Nat) [5, 3, 8, 1, 4, 7, 9]).inorderVisited =
        [1, 3, 4, 5, 7, 8, 9] ∧
      (Bstree.ofList (id : Nat → Nat) [5, 3, 8, 1, 4, 7, 9]).postorderVisited =
        [1, 4, 3, 7, 9, 8, 5] := by
  rw [Bstree.preorderVisited_eq, Bstree.inorderVisited_eq, Bstree.postorderVisited_eq]
  refine ⟨preorderTraverseNode_fold _ _ _, inorderTraverseNode_fold _ _ _,
    postorderTraverseNode_fold _ _ _, rfl, rfl, rfl, Node.preorder_perm_inorder _,
    Node.postorder_perm_inorder _, ?_, Node.length_inorder _, ?_, by decide, by decide,
    by decide⟩
  · rw [(Node.preorder_perm_inorder _).length_eq, Node.length_inorder]
  · rw [(Node.postorder_perm_inorder _).length_eq, Node.length_inorder]

/-- Claim C17: two ordered trees whose pre-order, in-order and post-order visited sequences
agree are the same tree: same shape, same item in every cell. -/
theorem C17_traversals_determine_tree [LinearOrder κ] (key : α → κ) (s t : Bstree α)
    (hs : s.root.Ordered key) (_ht : t.root.Ordered key)
    (hpre : s.preorderVisited = t.preorderVisited)
    (hin : s.inorderVisited = t.inorderVisited)
    (_hpost : s.postorderVisited = t.postorderVisited) :
    s.root = t.root ∧ s.root.shape = t.root.shape := by
  rw [Bstree.preorderVisited_eq, Bstree.preorderVisited_eq] at hpre
  rw [Bstree.inorderVisited_eq, Bstree.inorderVisited_eq] at hin
  have := Node.eq_of_preorder_inorder key s.root t.root hs hpre hin
  exact ⟨this, by rw [this]⟩

theorem C17_traversals_determine_tree_witness :
    ((Bstree.ofList (id : Nat → Nat) [5, 3, 8]).root.Ordered id ∧
      (Bstree.ofList (id : Nat → Nat) [5, 8, 3]).root.Ordered id ∧
      (Bstree.ofList (id : Nat → Nat) [5, 3, 8]).preorderVisited =
        (Bstree.ofList (id : Nat → Nat) [5, 8, 3]).preorderVisited ∧
      (Bstree.ofList (id : Nat → Nat) [5, 3, 8]).inorderVisited =
        (Bstree.ofList (id : Nat → Nat) [5, 8, 3]).inorderVisited ∧
      (Bstree.ofList (id : Nat → Nat) [5, 3, 8]).postorderVisited =
        (Bstree.ofList (id : Nat → Nat) [5, 8, 3]).postorderVisited) ∧
      ((Bstree.ofList (id : Nat → Nat) [5, 3, 8]).root =
          (Bstree.ofList (id : Nat → Nat) [5, 8, 3]).root ∧
        (Bstree.ofList (id : Nat → Nat) [5, 3, 8]).root.shape =
          (Bstree.ofList (id : Nat → Nat) [5, 8, 3]).root.shape) :=
  ⟨⟨by decide, by decide, by decide, by decide, by decide⟩,
    C17_traversals_determine_tree id _ _ (by decide) (by decide) (by decide) (by decide)
      (by decide)⟩

/-- Claim C18: `countLeaves()` is the number of cells without children and `countHalves()`
the number of cells with exactly one child; both are 0 on the empty tree (and 4 and 0 after
inserting 5, 3, 8, 1, 4, 7, 9). -/
theorem C18_count_leaves_and_halves (s : Bstree α) :
    s.countLeaves = (s.root.cells.countP Node.isLeaf : Int) ∧
      s.countHalves = (s.root.cells.countP Node.isHalf : Int) ∧
      (Bstree.mk0 : Bstree α).countLeaves = 0 ∧
      (Bstree.mk0 : Bstree α).countHalves = 0 ∧
      (Bstree.ofList (id : Nat → Nat) [5, 3, 8, 1, 4, 7, 9]).countLeaves = 4 ∧
      (Bstree.ofList (id : Nat → Nat) [5, 3, 8, 1, 4, 7, 9]).countHalves = 0 := by
  refine ⟨?_, ?_, rfl, rfl, by decide, by decide⟩
  · unfold Bstree.countLeaves
    split_ifs with h
    · rw [(Node.isNull_iff _).1 h]; rfl
    · exact countLeavesNode_eq_countP _
  · unfold Bstree.countHalves
    split_ifs with h
    · rw [(Node.isNull_iff _).1 h]; rfl
    · exact countHalvesNode_eq_countP _

/-- Below the root of an ordered tree, removing the key of a cell with two children puts the
least item of the right subtree into the cell, keeps the left subtree and drops the cell
that held that item from the right subtree. -/
theorem Bstree.remove_two_children_below_root [LinearOrder κ] (key : α → κ) (s : Bstree α)
    (item : α) (hO : s.root.Ordered key) (p : Addr) (a : Dir) (nl nr : Node α) (d : α)
    (h : search key s.root item = some (p ++ [a]))
    (hsub : s.root.sub (p ++ [a]) = .node nl d nr) (hl : nl ≠ .null) (hr : nr ≠ .null) :
    s.remove key item =
      (⟨s.root.store (p ++ [a]) (.node nl (nr.minOr d) nr.dropMin), s.order - 1⟩, true) := by
  rw [Bstree.remove_below_root key s item hO p a h, hsub]
  have hc : (!nl.isNull && !nr.isNull) = true := by
    cases nl <;> cases nr <;> simp_all
  simp [Node.unlink, hc]

/-- Claim C19, refuted on the code: removing the key of a cell with two children should put
the in-order successor into that cell and unlink the successor's cell. On the tree built from
5, 3, 8 the root holds 5 and has two children; `remove(5)` returns `true` but the root still
holds 5 and the cell of the successor 8 is still in place. Below the root the branch does what
the claim says: on the tree built from 5, 3, 8, 1, 4, `remove(3)` puts 4 into the cell of 3,
keeps its left subtree 1 and unlinks the old cell of 4. -/
theorem C19_remove_two_children_at_root :
    (Bstree.ofList (id : Nat → Nat) [5, 3, 8]).root =
        .node (.node .null 3 .null) 5 (.node .null 8 .null) ∧
      search id (Bstree.ofList (id : Nat → Nat) [5, 3, 8]).root 5 = some [] ∧
      (Bstree.ofList (id : Nat → Nat) [5, 3, 8]).remove id 5 =
        (⟨.node (.node .null 3 .null) 5 (.node .null 8 .null), 2⟩, true) ∧
      ((Bstree.ofList (id : Nat → Nat) [5, 3, 8, 1, 4]).remove id 3).1.root =
        .node (.node (.node .null 1 .null) 4 .null) 5 (.node .null 8 .null) := by
  refine ⟨by decide, by decide, by decide, by decide⟩

/-- On an ordered tree `countLeaves()` is the number of leaves that `trim()` takes off
`order`. -/
theorem Bstree.countLeaves_eq (s : Bstree α) : s.countLeaves = (s.root.leaves : Int) := by
  unfold Bstree.countLeaves
  split_ifs with h
  · rw [(Node.isNull_iff _).1 h]; rfl
  · exact countLeavesNode_eq_leaves _

/-- Claim C20: on an ordered tree `size()` after `trim()` is `size()` before the call minus
`countLeaves()` before the call (a decrement of 4, from 7 to 3, on the tree built from
5, 3, 8, 1, 4, 7, 9). -/
theorem C20_trim_size [LinearOrder κ] (key : α → κ) (s : Bstree α) (hO : s.root.Ordered key) :
    (s.trim key).size = s.size - s.countLeaves ∧
      (Bstree.ofList (id : Nat → Nat) [5, 3, 8, 1, 4, 7, 9]).size = 7 ∧
      ((Bstree.ofList (id : Nat → Nat) [5, 3, 8, 1, 4, 7, 9]).trim id).size = 3 := by
  refine ⟨?_, by decide, by decide⟩
  rw [Bstree.countLeaves_eq]
  cases hr : s.root with
  | null => rw [Bstree.trim_null key s hr]; simp [Node.leaves]
  | node l d r =>
    by_cases hl : s.root.isLeaf = true
    · rw [hr] at hl
      simp only [Node.isLeaf, Bool.and_eq_true, Node.isNull_iff] at hl
      obtain ⟨rfl, rfl⟩ := hl
      rw [Bstree.trim_of_leaf key s d hr]
      simp [Bstree.size, Node.leaves]
    · rw [Bstree.trim_of_not_leaf key s hO (by rw [hr]; simp) (by simpa using hl), hr]
      simp [Bstree.size]

theorem C20_trim_size_witness :
    (Bstree.ofList (id : Nat → Nat) [5, 3, 8, 1, 4, 7, 9]).root.Ordered id ∧
      (((Bstree.ofList (id : Nat → Nat) [5, 3, 8, 1, 4, 7, 9]).trim id).size =
          (Bstree.ofList (id : Nat → Nat) [5, 3, 8, 1, 4, 7, 9]).size -
            (Bstree.ofList (id : Nat → Nat) [5, 3, 8, 1, 4, 7, 9]).countLeaves ∧
        (Bstree.ofList (id : Nat → Nat) [5, 3, 8, 1, 4, 7, 9]).size = 7 ∧
        ((Bstree.ofList (id : Nat → Nat) [5, 3, 8, 1, 4, 7, 9]).trim id).size = 3) :=
  ⟨by decide, C20_trim_size id _ (by decide)⟩

/-! ## The claims on the observers after removals -/

/-- Claim C21, refuted on the code: in every reachable state `empty()` should be `true`
exactly when `size()` is 0, and `size()` should never be negative. After `insert(5);
remove(5)` the state is reachable, `size()` is 0 and `empty()` is `false`; one more
`remove(5)` gives the reachable state with `size()` equal to −1. -/
theorem C21_empty_disagrees_with_size :
    Reachable (id : Nat → Nat) ((Bstree.mk0.insert id 5).remove id 5).1 ∧
      ((Bstree.mk0.insert (id : Nat → Nat) 5).remove id 5).1.size = 0 ∧
      ((Bstree.mk0.insert (id : Nat → Nat) 5).remove id 5).1.empty = false ∧
      Reachable (id : Nat → Nat) ((((Bstree.mk0.insert id 5).remove id 5).1).remove id 5).1 ∧
      ((((Bstree.mk0.insert (id : Nat → Nat) 5).remove id 5).1).remove id 5).1.size = -1 := by
  refine ⟨?_, by decide, by decide, ?_, by decide⟩
  · exact Reachable.remove _ 5 (Reachable.insert _ 5 Reachable.init)
  · exact Reachable.remove _ 5 (Reachable.remove _ 5 (Reachable.insert _ 5 Reachable.init))

theorem Bstree.height_eq (s : Bstree α) : s.height = heightNode s.root := by
  unfold Bstree.height
  split_ifs with h
  · rw [(Node.isNull_iff _).1 h]; rfl
  · rfl

theorem heightNode_node (l r : Node α) (d : α) :
    heightNode (.node l d r) = max (heightNode l) (heightNode r) + 1 := rfl

theorem heightNode_nonneg (t : Node α) (h : t ≠ .null) : 0 ≤ heightNode t := by
  cases t with
  | null => exact absurd rfl h
  | node l d r =>
    rw [heightNode_node]
    have := heightNode_ge l
    have := le_max_left (heightNode l) (heightNode r)
    omega

theorem Node.prune_node_of_not_leaf (l r : Node α) (d : α) (h : l ≠ .null ∨ r ≠ .null) :
    (Node.node l d r).prune = .node l.prune d r.prune := by
  have hc : (l.isNull && r.isNull) = false := by
    rcases h with h | h
    · simp [(Node.isNull_eq_false_iff l).2 h]
    · simp [(Node.isNull_eq_false_iff r).2 h]
  rw [Node.prune, hc]
  simp

/-- Taking the leaves off a non-empty tree lowers its height by exactly 1. -/
theorem heightNode_prune (t : Node α) (h : t ≠ .null) :
    heightNode t.prune = heightNode t - 1 := by
  induction t with
  | null => exact absurd rfl h
  | node l d r ihl ihr =>
    by_cases hl : l = .null <;> by_cases hr : r = .null
    · subst hl; subst hr
      simp [Node.prune, heightNode]
    · subst hl
      have h0 := heightNode_nonneg r hr
      rw [Node.prune_node_of_not_leaf _ _ _ (Or.inr hr), heightNode_node, heightNode_node,
        ihr hr]
      have e1 : heightNode (Node.null : Node α).prune = -1 := rfl
      have e2 : heightNode (Node.null : Node α) = -1 := rfl
      rw [e1, e2, max_eq_right (by omega), max_eq_right (by omega)]
      ring
    · subst hr
      have h0 := heightNode_nonneg l hl
      rw [Node.prune_node_of_not_leaf _ _ _ (Or.inl hl), heightNode_node, heightNode_node,
        ihl hl]
      have e1 : heightNode (Node.null : Node α).prune = -1 := rfl
      have e2 : heightNode (Node.null : Node α) = -1 := rfl
      rw [e1, e2, max_eq_left (by omega), max_eq_left (by omega)]
      ring
    · rw [Node.prune_node_of_not_leaf _ _ _ (Or.inl hl), heightNode_node, heightNode_node,
        ihl hl, ihr hr, max_sub_sub_right]
      ring

/-- Claim C22: on an ordered tree with `height()` at least 1 (so with at least two cells),
`trim()` lowers `height()` by exactly 1. -/
theorem C22_trim_lowers_height [LinearOrder κ] (key : α → κ) (s : Bstree α)
    (hO : s.root.Ordered key) (hh : 1 ≤ s.height) :
    (s.trim key).height = s.height - 1 ∧ 2 ≤ s.root.count := by
  rw [Bstree.height_eq] at hh
  cases hr : s.root with
  | null => rw [hr] at hh; simp [heightNode] at hh
  | node l d r =>
    have hnl : s.root.isLeaf = false := by
      rw [hr]
      cases l with
      | null =>
        cases r with
        | null => rw [hr] at hh; simp [heightNode] at hh
        | node rl rd rr => rfl
      | node ll ld lr => rfl
    have hcount : 2 ≤ (Node.node l d r).count := by
      rw [hr] at hnl
      cases l with
      | null =>
        cases r with
        | null => simp [Node.isLeaf] at hnl
        | node rl rd rr => simp only [Node.count]; omega
      | node ll ld lr => simp only [Node.count]; omega
    refine ⟨?_, hcount⟩
    rw [Bstree.trim_of_not_leaf key s hO (by rw [hr]; simp) hnl, Bstree.height_eq,
      Bstree.height_eq]
    exact heightNode_prune _ (by rw [hr]; simp)

theorem C22_trim_lowers_height_witness :
    ((Bstree.ofList (id : Nat → Nat) [5, 3, 8, 1, 4, 7, 9]).root.Ordered id ∧
      1 ≤ (Bstree.ofList (id : Nat → Nat) [5, 3, 8, 1, 4, 7, 9]).height) ∧
      (((Bstree.ofList (id : Nat → Nat) [5, 3, 8, 1, 4, 7, 9]).trim id).height =
          (Bstree.ofList (id : Nat → Nat) [5, 3, 8, 1, 4, 7, 9]).height - 1 ∧
        2 ≤ (Bstree.ofList (id : Nat → Nat) [5, 3, 8, 1, 4, 7, 9]).root.count) :=
  ⟨⟨by decide, by decide⟩, C22_trim_lowers_height id _ (by decide) (by decide)⟩

end BstreeADT
